import Mathlib

/-!
Verification development for the phonopy repository slice consisting of
`phonopy/interface/abinit.py` (the Abinit structure-file adapter) and
`anharmonic/phonon3/__init__.py` (the Phono3py facade).

The Python code is shallowly embedded: file contents are lists of
characters, Python floats are modelled as rational numbers (the claims
under verification speak about values up to the printed floating
tolerance, so the rational model carries the printed decimal values
exactly), fallible code returns `Option`/`Except`.  Collaborators that
are not part of the source slice (`fracval`, `get_scaled_positions_lines`,
`Atoms`, the HDF5 persistence layer and the `conductivity_RTA` internals)
are modelled from the spec where needed; each such definition carries a
doc comment starting with `Modelled from the spec:`.
-/

/-! ## Characters, whitespace splitting -/

/-- Whitespace characters as used by Python `str.split()` on the inputs at
hand (space, newline, tab, carriage return). -/
def isWsC (c : Char) : Bool := c = ' ' || c = '\n' || c = '\t' || c = '\r'

/-- Decimal digit test on a character, by its code point. -/
def isDigitC (c : Char) : Bool := decide (48 ≤ c.toNat ∧ c.toNat ≤ 57)

/-- Worker for `splitWs`: `acc` holds the characters of the token currently
being read, in reverse order. -/
def splitWsAux : List Char → List Char → List (List Char)
  | [], acc => if acc.isEmpty then [] else [acc.reverse]
  | c :: cs, acc =>
    if isWsC c then
      if acc.isEmpty then splitWsAux cs [] else acc.reverse :: splitWsAux cs []
    else
      splitWsAux cs (c :: acc)

/-- Python `str.split()` (no argument): split on runs of whitespace,
dropping empty fields.  Since newline counts as whitespace, splitting a
whole file equals concatenating the per-line splits, which is how the
Python code (`for line in lines: for val in line.split()`) consumes it. -/
def splitWs (s : List Char) : List (List Char) := splitWsAux s []

/-- Python `str.split(sep)` for a one-character separator: fields between
occurrences of `sep`, empty fields kept. -/
def splitOnCharAux (sep : Char) : List Char → List Char → List (List Char)
  | [], acc => [acc.reverse]
  | c :: cs, acc =>
    if c = sep then acc.reverse :: splitOnCharAux sep cs []
    else splitOnCharAux sep cs (c :: acc)

/-- Python `str.split(sep)` for a one-character separator. -/
def splitOnChar (sep : Char) (s : List Char) : List (List Char) :=
  splitOnCharAux sep s []

/-- Is `pat` a leading segment of `s`? -/
def startsWithL : List Char → List Char → Bool
  | [], _ => true
  | _ :: _, [] => false
  | a :: as, b :: bs => a = b && startsWithL as bs

/-- Python `pat in s` substring containment test. -/
def hasSubstr (pat : List Char) : List Char → Bool
  | [] => startsWithL pat []
  | c :: cs => startsWithL pat (c :: cs) || hasSubstr pat cs

/-! ## Decimal rendering (Python `%d`, `%w.df` formatting) -/

/-- The decimal digit character for `n % 10`. -/
def digitChar (n : ℕ) : Char :=
  match n % 10 with
  | 0 => '0' | 1 => '1' | 2 => '2' | 3 => '3' | 4 => '4'
  | 5 => '5' | 6 => '6' | 7 => '7' | 8 => '8' | _ => '9'

/-- Big-endian decimal digits of a natural number; `fuel` bounds the
number of digits produced and is always seeded large enough. -/
def natToDigitsAux : ℕ → ℕ → List Char
  | 0, _ => []
  | fuel + 1, n =>
    if n < 10 then [digitChar n]
    else natToDigitsAux fuel (n / 10) ++ [digitChar (n % 10)]

/-- Big-endian decimal digits of a natural number (no leading zeros,
`0` renders as `"0"`). -/
def natToDigits (n : ℕ) : List Char := natToDigitsAux (n + 1) n

/-- Python `"%d" % z` for an integer. -/
def intToDigits (z : ℤ) : List Char :=
  if z < 0 then '-' :: natToDigits z.natAbs else natToDigits z.natAbs

/-- Left-pad a rendered field to `width` characters with `pad`. -/
def padLeft (width : ℕ) (pad : Char) (s : List Char) : List Char :=
  List.replicate (width - s.length) pad ++ s

/-- Right-pad a rendered field to `width` characters with `pad`. -/
def padRight (width : ℕ) (pad : Char) (s : List Char) : List Char :=
  s ++ List.replicate (width - s.length) pad

/-- Pad `ds` on the left with `'0'` up to `k` characters. -/
def zeroPad (k : ℕ) (ds : List Char) : List Char :=
  List.replicate (k - ds.length) '0' ++ ds

/-- The unpadded text of Python `"%.<decimals>f" % q`: sign, integer part,
point, exactly `decimals` fraction digits, rounding to nearest.  The
binary-double rounding of Python is glossed: the claims under
verification compare values at the printed tolerance, and every witness
uses values that are exact in both models. -/
def fixedContent (decimals : ℕ) (q : ℚ) : List Char :=
  let z : ℤ := ⌊q * (10 : ℚ) ^ decimals + 1 / 2⌋
  let n : ℕ := z.natAbs
  let sign : List Char := if z < 0 then ['-'] else []
  sign ++ natToDigits (n / 10 ^ decimals) ++
    '.' :: zeroPad decimals (natToDigits (n % 10 ^ decimals))

/-- Python `"%<width>.<decimals>f" % q` (space padding on the left). -/
def fixedField (width decimals : ℕ) (q : ℚ) : List Char :=
  padLeft width ' ' (fixedContent decimals q)

/-! ## Decimal parsing (Python `int(...)`, `float(...)`) -/

/-- Numeric value of a digit character. -/
def digitVal (c : Char) : ℕ := c.toNat - 48

/-- Value of a big-endian digit string. -/
def digitsVal (ds : List Char) : ℕ :=
  ds.foldl (fun a c => 10 * a + digitVal c) 0

/-- Parse a nonempty all-digit string as a natural number. -/
def parseUDigits (ds : List Char) : Option ℕ :=
  if ds ≠ [] ∧ ds.all isDigitC then some (digitsVal ds) else none

/-- Python `int(s)` on a whitespace-free token: optional sign followed by
decimal digits; anything else raises (modelled as `none`). -/
def pyIntChars : List Char → Option ℤ
  | [] => none
  | c :: rest =>
    if c = '-' then (parseUDigits rest).map (fun n => -(n : ℤ))
    else if c = '+' then (parseUDigits rest).map (fun n => (n : ℤ))
    else (parseUDigits (c :: rest)).map (fun n => (n : ℤ))

/-- Unsigned part of `pyFloatChars`: digits, optionally followed by a
point and further digits, at least one digit in total. -/
def pyUFloatChars (s : List Char) : Option ℚ :=
  let ip := s.takeWhile isDigitC
  match s.dropWhile isDigitC with
  | [] => if ip = [] then none else some (digitsVal ip)
  | '.' :: frac =>
    if frac.all isDigitC ∧ (ip ≠ [] ∨ frac ≠ []) then
      some ((digitsVal ip : ℚ) + (digitsVal frac : ℚ) / (10 : ℚ) ^ frac.length)
    else none
  | _ => none

/-- Python `float(s)` on a whitespace-free token, restricted to the plain
decimal forms the adapter deals in (no exponent notation).  This also
models `fracval` from `phonopy.cui.settings`, which is not part of the
source slice: on the tokens reaching it here it is plain float parsing. -/
def pyFloatChars : List Char → Option ℚ
  | [] => none
  | c :: rest =>
    if c = '-' then (pyUFloatChars rest).map (fun q => -q)
    else if c = '+' then pyUFloatChars rest
    else pyUFloatChars (c :: rest)

/-! ## Python-style list operations -/

/-- Python `l[:n]` for a possibly negative bound. -/
def pyTake (n : ℤ) (l : List α) : List α :=
  if 0 ≤ n then l.take n.toNat else l.take (l.length - n.natAbs)

/-- Python `l[a:b]` for nonnegative bounds. -/
def pySlice (a b : ℕ) (l : List α) : List α := (l.drop a).take (b - a)

/-- Python `l[i]` with negative-index wrap-around; out-of-range raises
(modelled as `none`). -/
def pyIndex (l : List α) (i : ℤ) : Option α :=
  if 0 ≤ i then l.get? i.toNat
  else if i.natAbs ≤ l.length then l.get? (l.length - i.natAbs) else none

/-- Python `[a] * m` for a possibly negative integer `m`. -/
def pyReplicate (m : ℤ) (a : α) : List α := List.replicate m.toNat a

/-! ## Crystal-structure data model -/

/-- A triple of rational coordinates. -/
structure Vec3 where
  x : ℚ
  y : ℚ
  z : ℚ
deriving DecidableEq

/-- A 3x3 rational matrix, stored by rows. -/
structure Mat3 where
  r0 : Vec3
  r1 : Vec3
  r2 : Vec3
deriving DecidableEq

/-- Transpose of a 3x3 matrix. -/
def Mat3.transpose (m : Mat3) : Mat3 :=
  ⟨⟨m.r0.x, m.r1.x, m.r2.x⟩, ⟨m.r0.y, m.r1.y, m.r2.y⟩, ⟨m.r0.z, m.r1.z, m.r2.z⟩⟩

/-- Scale the columns of `m` by `a` (numpy `np.array(m) * [a0, a1, a2]`,
broadcasting the vector over the rows). -/
def Mat3.colScale (m : Mat3) (a : Vec3) : Mat3 :=
  ⟨⟨m.r0.x * a.x, m.r0.y * a.y, m.r0.z * a.z⟩,
   ⟨m.r1.x * a.x, m.r1.y * a.y, m.r1.z * a.z⟩,
   ⟨m.r2.x * a.x, m.r2.y * a.y, m.r2.z * a.z⟩⟩

/-- Scale all entries of `m` by `c` (numpy scalar broadcast). -/
def Mat3.smul (m : Mat3) (c : ℚ) : Mat3 :=
  ⟨⟨m.r0.x * c, m.r0.y * c, m.r0.z * c⟩,
   ⟨m.r1.x * c, m.r1.y * c, m.r1.z * c⟩,
   ⟨m.r2.x * c, m.r2.y * c, m.r2.z * c⟩⟩

/-- Modelled from the spec: the `Atoms` class of `phonopy.structure.atoms`
(not part of the source slice) as consumed here — an immutable crystal
structure holding atomic numbers, a 3x3 cell matrix and fractional
(scaled) positions. -/
structure PyAtoms where
  numbers : List ℤ
  cell : Mat3
  scaledPositions : List Vec3
deriving DecidableEq

/-- Modelled from the spec: the CODATA Bohr radius in Angstrom, imported
by the adapter from `phonopy.units` (not part of the source slice) and
used only as the Angstrom-to-Bohr conversion divisor. -/
def Bohr : ℚ := 52917721092 / 100000000000

/-! ## The Abinit writer (`get_abinit_structure`) -/

/-- The `znucl` list built by `get_abinit_structure`: each atomic number
on first occurrence. -/
def mkZnucl (numbers : List ℤ) : List ℤ :=
  numbers.foldl (fun z n => if n ∈ z then z else z ++ [n]) []

/-- The `typat` list built by `get_abinit_structure`:
`znucl.index(n) + 1` for each atomic number. -/
def mkTypat (znucl numbers : List ℤ) : List ℕ :=
  numbers.map (fun n => znucl.indexOf n + 1)

/-- The keyword tokens of the Abinit variables the adapter knows. -/
def kwAcell : List Char := "acell".data

/-- Keyword token `natom`. -/
def kwNatom : List Char := "natom".data

/-- Keyword token `ntypat`. -/
def kwNtypat : List Char := "ntypat".data

/-- Keyword token `rprim`. -/
def kwRprim : List Char := "rprim".data

/-- Keyword token `typat`. -/
def kwTypat : List Char := "typat".data

/-- Keyword token `xred`. -/
def kwXred : List Char := "xred".data

/-- Keyword token `znucl`. -/
def kwZnucl : List Char := "znucl".data

/-- One row of the `rprim` block: `("%20.16f" * 3 + "\n")` applied to
three values. -/
def rprimRow (a b c : ℚ) : List Char :=
  fixedField 20 16 a ++ fixedField 20 16 b ++ fixedField 20 16 c ++ ['\n']

/-- Modelled from the spec: `get_scaled_positions_lines` from
`phonopy.interface.vasp` (not part of the source slice) writes one line
per atom holding its three fractional coordinates as fixed-point decimal
fields separated by spaces; re-reading reproduces the coordinates. -/
def scaledPositionsLines (positions : List Vec3) : List Char :=
  positions.flatMap (fun v =>
    ' ' :: fixedContent 16 v.x ++ ' ' :: fixedContent 16 v.y ++
      ' ' :: fixedContent 16 v.z ++ ['\n'])

/-- `get_abinit_structure(cell)`: the Abinit input text for a structure.
Chunks follow the source line by line: `natom`, `typat`, `ntypat`,
`znucl`, `acell 1 1 1`, `rprim` (the transposed cell, three `%20.16f`
fields per row), `xred`. -/
def get_abinit_structure (cell : PyAtoms) : List Char :=
  let znucl := mkZnucl cell.numbers
  let typat := mkTypat znucl cell.numbers
  let m := cell.cell
  kwNatom ++ ' ' :: natToDigits cell.numbers.length ++ '\n' ::
  kwTypat ++ '\n' ::
    (typat.flatMap (fun t => ' ' :: natToDigits t) ++ ['\n']) ++
  kwNtypat ++ ' ' :: natToDigits znucl.length ++ '\n' ::
  kwZnucl ++ (znucl.flatMap (fun z => ' ' :: intToDigits z) ++ ['\n']) ++
  kwAcell ++ " 1 1 1\n".data ++
  kwRprim ++ '\n' ::
    (rprimRow m.r0.x m.r1.x m.r2.x ++ rprimRow m.r0.y m.r1.y m.r2.y ++
     rprimRow m.r0.z m.r1.z m.r2.z) ++
  kwXred ++ '\n' :: scaledPositionsLines cell.scaledPositions

/-! ## The Abinit parser (`AbinitIn`) -/

/-- The recognized Abinit variable tags. -/
inductive ATag
  | acell | natom | ntypat | rprim | typat | xred | znucl
deriving DecidableEq

/-- The keyword token of a tag. -/
def ATag.kw : ATag → List Char
  | .acell => kwAcell
  | .natom => kwNatom
  | .ntypat => kwNtypat
  | .rprim => kwRprim
  | .typat => kwTypat
  | .xred => kwXred
  | .znucl => kwZnucl

/-- Is this token one of the recognized keywords
(`val in self._set_methods`)? -/
def keywordOf (tok : List Char) : Option ATag :=
  if tok = kwAcell then some .acell
  else if tok = kwNatom then some .natom
  else if tok = kwNtypat then some .ntypat
  else if tok = kwRprim then some .rprim
  else if tok = kwTypat then some .typat
  else if tok = kwXred then some .xred
  else if tok = kwZnucl then some .znucl
  else none

/-- The `elements` dictionary of `AbinitIn._collect`: the value tokens
gathered after each keyword (`none` when the keyword never occurred). -/
structure Collected where
  acell : Option (List (List Char)) := none
  natom : Option (List (List Char)) := none
  ntypat : Option (List (List Char)) := none
  rprim : Option (List (List Char)) := none
  typat : Option (List (List Char)) := none
  xred : Option (List (List Char)) := none
  znucl : Option (List (List Char)) := none
deriving DecidableEq

/-- Read the field of `Collected` selected by a tag. -/
def Collected.getTag (c : Collected) : ATag → Option (List (List Char))
  | .acell => c.acell
  | .natom => c.natom
  | .ntypat => c.ntypat
  | .rprim => c.rprim
  | .typat => c.typat
  | .xred => c.xred
  | .znucl => c.znucl

/-- Replace the field of `Collected` selected by a tag. -/
def Collected.setTag (c : Collected) (t : ATag) (v : List (List Char)) : Collected :=
  match t with
  | .acell => { c with acell := some v }
  | .natom => { c with natom := some v }
  | .ntypat => { c with ntypat := some v }
  | .rprim => { c with rprim := some v }
  | .typat => { c with typat := some v }
  | .xred => { c with xred := some v }
  | .znucl => { c with znucl := some v }

/-- One step of the token loop of `AbinitIn._collect`: a keyword token
selects (and resets) its tag; any other token is appended to the current
tag's list, or skipped when no tag is active yet. -/
def collectStep (st : Option ATag × Collected) (tok : List Char) :
    Option ATag × Collected :=
  match keywordOf tok with
  | some t => (some t, st.2.setTag t [])
  | none =>
    match st.1 with
    | none => st
    | some t => (some t, st.2.setTag t ((st.2.getTag t).getD [] ++ [tok]))

/-- The token loop of `AbinitIn._collect` over the whole token stream. -/
def collectTokens (toks : List (List Char)) : Collected :=
  (toks.foldl collectStep (none, {})).2

/-- Errors of the embedded adapter: a missing mandatory tag is reported
by name before `sys.exit(1)`; any other uncaught Python exception
(`ValueError`, `IndexError`, numpy reshape errors) is a crash. -/
inductive AbinitErr
  | missingTag (t : ATag)
  | crash
deriving DecidableEq

/-- `AbinitIn._get_numerical_values` for one token, parameterized by the
scalar parser (`fracval` or `int`): `N*value` expands to `N` copies of
the parsed value, otherwise one parsed value. -/
def get_numerical_values (parse : List Char → Option α) (tok : List Char) :
    Option (List α) :=
  if '*' ∈ tok then
    let parts := splitOnChar '*' tok
    match pyIntChars (parts.headD []), parts.get? 1 with
    | some m, some v => (parse v).map (fun a => pyReplicate m a)
    | _, _ => none
  else
    (parse tok).map (fun a => [a])

/-- The accumulation loop shared by `_set_rprim`, `_set_typat`,
`_set_xred` and `_set_znucl`: extend with each token's values, stopping
as soon as the target count is reached (checked after appending). -/
def accumUntil (parse : List Char → Option (List α)) :
    List (List Char) → ℤ → List α → Option (List α)
  | [], _, acc => some acc
  | v :: vs, target, acc =>
    match parse v with
    | none => none
    | some xs =>
      let acc' := acc ++ xs
      if target ≤ (acc'.length : ℤ) then some acc'
      else accumUntil parse vs target acc'

/-- The token `angstr`, the 6-character unit marker prefix. -/
def angstrChars : List Char := "angstr".data

/-- Does a token announce Angstrom units
(`len(val) >= 6 and val[:6].lower() == 'angstr'`)? -/
def isAngstromTok (v : List Char) : Bool :=
  decide (6 ≤ v.length) && ((v.take 6).map Char.toLower = angstrChars)

/-- The loop of `AbinitIn._set_acell`: gather values until three are
present; the next token, if any, may announce Angstrom units (`true` in
the result), which later divides the first three values by `Bohr`. -/
def acellLoop : List (List Char) → List ℚ → Option (List ℚ × Bool)
  | [], acc => some (acc, false)
  | v :: vs, acc =>
    if 3 ≤ acc.length then
      some (acc, isAngstromTok v)
    else
      match get_numerical_values pyFloatChars v with
      | none => none
      | some xs => acellLoop vs (acc ++ xs)

/-- `AbinitIn._set_acell`: the stored `acell` value for the collected
tokens. -/
def set_acell (toks : List (List Char)) : Option (List ℚ) :=
  (acellLoop toks []).map (fun p =>
    if p.2 then (p.1.take 3).map (fun q => q / Bohr) else p.1.take 3)

/-- `AbinitIn._set_natom` / `_set_ntypat`: `int` of the first collected
token (raises when there is none or it is not an integer). -/
def set_count (toks : List (List Char)) : Option ℤ :=
  toks.head?.bind pyIntChars

/-- Rebuild a 3x3 matrix from nine values
(`np.reshape(rprim[:9], (3, 3))`); fewer than nine raises. -/
def mat3OfList : List ℚ → Option Mat3
  | [a, b, c, d, e, f, g, h, i] => some ⟨⟨a, b, c⟩, ⟨d, e, f⟩, ⟨g, h, i⟩⟩
  | _ => none

/-- `AbinitIn._set_rprim`. -/
def set_rprim (toks : List (List Char)) : Option Mat3 :=
  (accumUntil (get_numerical_values pyFloatChars) toks 9 []).bind
    (fun l => mat3OfList (l.take 9))

/-- `AbinitIn._set_typat`: integers up to `natom`, then `typat[:natom]`. -/
def set_typat (toks : List (List Char)) (natom : ℤ) : Option (List ℤ) :=
  (accumUntil (get_numerical_values pyIntChars) toks natom []).map (pyTake natom)

/-- Group a flat coordinate list into rows of three
(`np.reshape(xred[:natom * 3], (-1, 3))`); a remainder raises. -/
def rows3 : List ℚ → Option (List Vec3)
  | [] => some []
  | a :: b :: c :: rest => (rows3 rest).map (fun vs => ⟨a, b, c⟩ :: vs)
  | _ => none

/-- `AbinitIn._set_xred`. -/
def set_xred (toks : List (List Char)) (natom : ℤ) : Option (List Vec3) :=
  (accumUntil (get_numerical_values pyFloatChars) toks (natom * 3) []).bind
    (fun l => rows3 (pyTake (natom * 3) l))

/-- `AbinitIn._set_znucl`. -/
def set_znucl (toks : List (List Char)) (ntypat : ℤ) : Option (List ℤ) :=
  (accumUntil (get_numerical_values pyIntChars) toks ntypat []).map (pyTake ntypat)

/-- The `_tags` dictionary of `AbinitIn` after `_collect` ran all the
setters; a tag whose keyword never occurred stays `none` (`natom` and
`ntypat` are always present, their absence having been reported before
any setter ran). -/
structure AbinitTags where
  natom : ℤ
  ntypat : ℤ
  acell : Option (List ℚ) := none
  rprim : Option Mat3 := none
  typat : Option (List ℤ) := none
  xred : Option (List Vec3) := none
  znucl : Option (List ℤ) := none
deriving DecidableEq

/-- Turn a raised Python exception into `.crash`. -/
def toCrash : Option α → Except AbinitErr α
  | none => .error .crash
  | some a => .ok a

/-- Lift a setter to run only when its tag's tokens were collected,
turning a raised exception into `.crash`. -/
def runSetter (toks : Option (List (List Char))) (f : List (List Char) → Option α) :
    Except AbinitErr (Option α) :=
  match toks with
  | none => .ok none
  | some ts =>
    match f ts with
    | none => .error .crash
    | some a => .ok (some a)

/-- The setter phase of `AbinitIn._collect` once `natom` and `ntypat`
are known to be present: those two run first, the remaining setters
afterwards (`typat`, `xred`, `znucl` consume the already-set counts). -/
def abinitSetters (c : Collected) (natomToks ntypatToks : List (List Char)) :
    Except AbinitErr AbinitTags := do
  let natom ← toCrash (set_count natomToks)
  let ntypat ← toCrash (set_count ntypatToks)
  let acell ← runSetter c.acell set_acell
  let rprim ← runSetter c.rprim set_rprim
  let typat ← runSetter c.typat (fun ts => set_typat ts natom)
  let xred ← runSetter c.xred (fun ts => set_xred ts natom)
  let znucl ← runSetter c.znucl (fun ts => set_znucl ts ntypat)
  return { natom, ntypat, acell, rprim, typat, xred, znucl }

/-- `AbinitIn._collect` on a token stream: gather the value tokens, halt
naming the tag when `natom` or `ntypat` is missing (in that order, as the
source checks them), then run the setters. -/
def abinitCollect (toks : List (List Char)) : Except AbinitErr AbinitTags :=
  let c := collectTokens toks
  match c.natom, c.ntypat with
  | none, _ => .error (.missingTag .natom)
  | some _, none => .error (.missingTag .ntypat)
  | some natomToks, some ntypatToks => abinitSetters c natomToks ntypatToks

/-- `AbinitIn(lines).get_variables()` on raw file text. -/
def abinitVariables (s : List Char) : Except AbinitErr AbinitTags :=
  abinitCollect (splitWs s)

/-- Read a tag that `read_abinit` dereferences; `None` crashes there. -/
def requireTag : Option α → Except AbinitErr α
  | none => .error .crash
  | some a => .ok a

/-- `np.array(rprim) * acell` as used in `read_abinit`: an `acell` list
of length 3 scales the columns, length 1 broadcasts as a scalar, any
other length raises. -/
def rprimTimesAcell (rprim : Mat3) (acell : List ℚ) : Except AbinitErr Mat3 :=
  match acell with
  | [a, b, c] => .ok (rprim.colScale ⟨a, b, c⟩)
  | [a] => .ok (rprim.smul a)
  | _ => .error .crash

/-- `read_abinit` on file text: parse the variables, then build
`Atoms(numbers=[znucl[x - 1] for x in typat], cell=(rprim * acell).T,
scaled_positions=xred)`. -/
def read_abinit (s : List Char) : Except AbinitErr PyAtoms := do
  let tags ← abinitVariables s
  let acell ← requireTag tags.acell
  let rprim ← requireTag tags.rprim
  let xred ← requireTag tags.xred
  let typat ← requireTag tags.typat
  let znucl ← requireTag tags.znucl
  let lattice ← rprimTimesAcell rprim acell
  let numbers ← match typat.mapM (fun x => pyIndex znucl (x - 1)) with
                | none => Except.error AbinitErr.crash
                | some ns => Except.ok ns
  return { numbers, cell := lattice.transpose, scaledPositions := xred }

/-! ## `get_forces_abinit` -/

/-- The marker line content searched for by `get_forces_abinit`. -/
def forcesMarker : List Char := "cartesian forces (eV/Angstrom)".data

/-- Result of `get_forces_abinit`: Python returns either `False` or the
list of force rows. -/
inductive ForcesResult
  | falseRes
  | rows (l : List Vec3)
deriving DecidableEq

/-- The collection loop of `get_forces_abinit`: a line with more than
three whitespace fields contributes `float` of fields 1..3, any other
line aborts with `False`; collection stops once `num_atom` rows exist
(checked after appending). -/
def forcesLoop (numAtom : ℕ) : List (List Char) → List Vec3 → Option ForcesResult
  | [], acc => some (.rows acc.reverse)
  | l :: ls, acc =>
    let elems := splitWs l
    if 3 < elems.length then
      match pyFloatChars (elems.getD 1 []), pyFloatChars (elems.getD 2 []),
            pyFloatChars (elems.getD 3 []) with
      | some a, some b, some c =>
        let acc' : List Vec3 := ⟨a, b, c⟩ :: acc
        if acc'.length = numAtom then some (.rows acc'.reverse)
        else forcesLoop numAtom ls acc'
      | _, _, _ => none
    else
      some .falseRes

/-- `get_forces_abinit(filename, num_atom)`: skip to the line containing
the cartesian-forces marker, then collect rows. -/
def get_forces_abinit (lines : List (List Char)) (numAtom : ℕ) : Option ForcesResult :=
  forcesLoop numAtom ((lines.dropWhile (fun l => !hasSubstr forcesMarker l)).drop 1) []

/-! ## Phono3py facade: frequency sampling (`get_imag_self_energy`) -/

/-- numpy `np.amax` over a nonempty rational array (flattened). -/
def npAmax : List ℚ → ℚ
  | [] => 0
  | x :: xs => xs.foldl max x

/-- numpy `np.arange(start, stop, step)` for a positive rational step:
`max 0 ⌈(stop - start) / step⌉` samples `start + k * step`. -/
def npArange (start stop step : ℚ) : List ℚ :=
  (List.range (⌈(stop - start) / step⌉).toNat).map (fun k : ℕ => start + (k : ℚ) * step)

/-- The frequency sampling points built in `Phono3py.get_imag_self_energy`
for one (grid point, sigma, temperature) iteration:
`max_freq = np.amax(frequencies) * 2 + sigma * 4` and
`np.arange(0, max_freq + frequency_step / 2, frequency_step)`; the
cached frequencies come from `Interaction.get_phonons()[0]`. -/
def iseFpoints (frequencies : List ℚ) (sigma frequency_step : ℚ) : List ℚ :=
  npArange 0 (npAmax frequencies * 2 + sigma * 4 + frequency_step / 2) frequency_step

/-! ## Phono3py facade: band-index grouping -/

/-- The `pos` computed for band group `i` in `get_imag_self_energy` and
`get_linewidth`: the summed lengths of the groups before it. -/
def groupPos (bandIndices : List (List ℕ)) (i : ℕ) : ℕ :=
  (List.range i).foldl (fun pos j => pos + ((bandIndices.getD j []).length)) 0

/-- The column slice `gamma_row[pos:pos + len(bi)]` taken for band group
`i` from one row (one frequency point or one temperature) of the
self-energy array. -/
def groupSlice (bandIndices : List (List ℕ)) (i : ℕ) (row : List ℚ) : List ℚ :=
  pySlice (groupPos bandIndices i)
    (groupPos bandIndices i + (bandIndices.getD i []).length) row

/-- The per-frequency value written by `get_imag_self_energy` for band
group `i`: `gamma[:, pos:pos + len(bi)].sum(axis=1) / len(bi)`. -/
def iseGroupValues (bandIndices : List (List ℕ)) (i : ℕ) (gamma : List (List ℚ)) :
    List ℚ :=
  gamma.map (fun row =>
    (groupSlice bandIndices i row).sum / ((bandIndices.getD i []).length : ℚ))

/-- The array passed to `write_linewidth` for band group `i` in
`get_linewidth`: `gamma[:, pos:pos + len(bi)]` (rows indexed by
temperature). -/
def lwGroupSlice (bandIndices : List (List ℕ)) (i : ℕ) (gamma : List (List ℚ)) :
    List (List ℚ) :=
  gamma.map (groupSlice bandIndices i)

/-! ## Phono3py facade: thermal conductivity resumption (`read_gamma`) -/

/-- A persisted scattering-rate array (band x temperature values; the
shape plays no role in the claims). -/
def GammaArr : Type := List (List ℚ)

instance : DecidableEq GammaArr :=
  inferInstanceAs (DecidableEq (List (List ℚ)))

/-- The key addressing one persisted gamma array: mesh numbers, mesh
divisors, grid point and sigma. -/
structure GammaKey where
  mesh : List ℕ
  meshDivisors : List ℕ
  gridPoint : ℕ
  sigma : ℚ
deriving DecidableEq

/-- The persistence collaborator: an addressable key-to-array store
(spec section 6). -/
structure GammaStore where
  entries : List (GammaKey × GammaArr)

/-- Modelled from the spec: `read_gamma_from_hdf5` from
`anharmonic.file_IO` (not part of the source slice) retrieves the
persisted gamma array addressed by mesh numbers, mesh divisors, grid
point and sigma; per spec section 7(4) an array is only delivered when
the mesh dimensions and grid-point identity of its key match the
request. -/
def read_gamma_from_hdf5 (store : GammaStore) (mesh meshDivisors : List ℕ)
    (gridPoint : ℕ) (sigma : ℚ) : Option GammaArr :=
  (store.entries.find? (fun e =>
    decide (e.1 = ⟨mesh, meshDivisors, gridPoint, sigma⟩))).map Prod.snd

/-- Modelled from the spec: the `conductivity_RTA` state visible to the
facade — the current run's mesh numbers and divisors, the full
(irreducible) grid-point set, the active grid points and the optional
injected gamma. -/
structure BrState where
  meshNumbers : List ℕ
  meshDivisors : List ℕ
  irrGridPoints : List ℕ
  gridPoints : List ℕ
  gamma : Option (List (List GammaArr))

/-- Modelled from the spec: `conductivity_RTA.set_grid_points` — `None`
selects the full irreducible set. -/
def set_grid_points (br : BrState) (gps : Option (List ℕ)) : BrState :=
  { br with gridPoints := gps.getD br.irrGridPoints }

/-- `conductivity_RTA.set_gamma`: inject externally supplied scattering
rates. -/
def set_gamma (br : BrState) (g : List (List GammaArr)) : BrState :=
  { br with gamma := some g }

/-- Sequence a row of optional values. -/
def seqRow : List (Option α) → Option (List α)
  | [] => some []
  | none :: _ => none
  | some a :: rest => (seqRow rest).map (fun l => a :: l)

/-- Sequence a table of optional values (the `np.double(gamma)`
conversion is fatal when any persisted array is missing, spec
section 7(3)). -/
def seqTable (t : List (List (Option α))) : Option (List (List α)) :=
  seqRow (t.map seqRow)

/-- The `read_gamma` branch of `Phono3py.get_thermal_conductivity`: for
every sigma and every grid point of the run, retrieve the persisted gamma
keyed by the current run's mesh numbers, mesh divisors, grid point and
sigma, and inject the table via `set_gamma`. -/
def readGammaPhase (store : GammaStore) (sigmas : List ℚ) (br : BrState) :
    Option BrState :=
  (seqTable (sigmas.map (fun s => br.gridPoints.map (fun gp =>
    read_gamma_from_hdf5 store br.meshNumbers br.meshDivisors gp s)))).map
    (set_gamma br)

/-- Modelled from the spec: the gamma table `calculate_kappa` works from
(spec section 4.3) — the injected table when `set_gamma` ran, otherwise
the internally recomputed rates, abstracted as `recompute`. -/
def kappaGammaUsed (recompute : ℚ → ℕ → GammaArr) (sigmas : List ℚ)
    (br : BrState) : List (List GammaArr) :=
  match br.gamma with
  | some g => g
  | none => sigmas.map (fun s => br.gridPoints.map (fun gp => recompute s gp))

/-- The gamma-handling skeleton of `Phono3py.get_thermal_conductivity`:
resolve the grid points, run the `read_gamma` branch when requested, and
report the gamma table that `calculate_kappa` then uses. -/
def thermalConductivityGamma (store : GammaStore) (recompute : ℚ → ℕ → GammaArr)
    (br0 : BrState) (sigmas : List ℚ) (grid_points : Option (List ℕ))
    (read_gamma : Bool) : Option (List (List GammaArr)) :=
  let br := set_grid_points br0 grid_points
  if read_gamma then
    (readGammaPhase store sigmas br).map (kappaGammaUsed recompute sigmas)
  else
    some (kappaGammaUsed recompute sigmas br)

/-! ## Phono3py facade: console summary (`get_thermal_conductivity`) -/

/-- The six independent conductivity tensor components in the layout the
printed table labels them: xx, yy, zz, yz, xz, xy.  Modelled from the
spec: the last axis of the kappa array produced by `conductivity_RTA`
(not part of the source slice) carries the components in this order
(spec section 6). -/
structure Vec6 where
  xx : ℚ
  yy : ℚ
  zz : ℚ
  yz : ℚ
  xz : ℚ
  xy : ℚ
deriving DecidableEq

/-- Componentwise zero. -/
def Vec6.zero : Vec6 := ⟨0, 0, 0, 0, 0, 0⟩

/-- Componentwise sum of two tensors. -/
def Vec6.add (a b : Vec6) : Vec6 :=
  ⟨a.xx + b.xx, a.yy + b.yy, a.zz + b.zz, a.yz + b.yz, a.xz + b.xz, a.xy + b.xy⟩

/-- The six components in printed order. -/
def Vec6.toList (v : Vec6) : List ℚ := [v.xx, v.yy, v.zz, v.yz, v.xz, v.xy]

/-- Sum of a list of tensors. -/
def sumVec6 (l : List Vec6) : Vec6 := l.foldl Vec6.add Vec6.zero

/-- numpy elementwise `+` on equal-length tensor rows. -/
def addVec6Rows (a b : List Vec6) : List Vec6 := List.zipWith Vec6.add a b

/-- numpy `sum(axis=0)` over a list of tensor rows of common length
`nT` (an empty list sums to zeros, as numpy does on an empty axis). -/
def npSumRows (nT : ℕ) (rows : List (List Vec6)) : List Vec6 :=
  rows.foldl addVec6Rows (List.replicate nT Vec6.zero)

/-- `mode_kappa[i].sum(axis=2).sum(axis=0)` of the facade: collapse the
band axis, then the grid-point axis, leaving one tensor per temperature.
`modeKappaSigma` is indexed grid point, temperature, band. -/
def kappaOfModeKappa (nT : ℕ) (modeKappaSigma : List (List (List Vec6))) :
    List Vec6 :=
  npSumRows nT (modeKappaSigma.map (fun gpRows => gpRows.map sumVec6))

/-- Modelled from the spec: Python `str(float)` under the rational
embedding — the shortest plain decimal rendering of the value (used only
inside the sigma header line). -/
def pyStrFloat (q : ℚ) : List Char :=
  let k := (((List.range 18).find? (fun k => (q * (10 : ℚ) ^ k).den = 1)).getD 17)
  fixedContent (max k 1) q

/-- The sigma header line, the two Python 2 `print` statements joined by
the soft space:
`----------- Thermal conductivity (W/m-k) for sigma=%s -----------`. -/
def sigmaHeaderLine (sigma : ℚ) : List Char :=
  "----------- Thermal conductivity (W/m-k) for sigma=".data ++
    pyStrFloat sigma ++ " -----------".data

/-- The column header line
`("#%6s     " + " %-9s" * 6) % ("T(K)", "xx", "yy", "zz", "yz", "xz", "xy")`. -/
def columnHeaderLine : List Char :=
  '#' :: padLeft 6 ' ' "T(K)".data ++ List.replicate 5 ' ' ++
    (["xx", "yy", "zz", "yz", "xz", "xy"].flatMap (fun lbl =>
      ' ' :: padRight 9 ' ' lbl.data))

/-- One data row `("%7.1f" + " %9.3f" * 6) % ((t,) + tuple(k))`. -/
def kappaRowLine (t : ℚ) (k : Vec6) : List Char :=
  fixedField 7 1 t ++ k.toList.flatMap (fun v => ' ' :: fixedField 9 3 v)

/-- The lines printed for one sigma: header, column header, one row per
temperature, and the blank line of the trailing bare `print`. -/
def sigmaBlock (sigma : ℚ) (temperatures : List ℚ) (kappa : List Vec6) :
    List (List Char) :=
  sigmaHeaderLine sigma :: columnHeaderLine ::
    (temperatures.zip kappa).map (fun p => kappaRowLine p.1 p.2) ++ [[]]

/-- Modelled from the spec: `conductivity_RTA.get_temperatures()` — the
temperature sweep configured from `t_min`, `t_max`, `t_step`, built like
the facade's own `np.arange(t_min, t_max + t_step / 2.0, t_step)`. -/
def brTemperatures (t_min t_max t_step : ℚ) : List ℚ :=
  npArange t_min (t_max + t_step / 2) t_step

/-- The console summary of `Phono3py.get_thermal_conductivity`: printed
only when `grid_points is None`; for each sigma in the supplied order,
`kappa = mode_kappa[i].sum(axis=2).sum(axis=0)` is tabulated against the
temperatures.  `modeKappa` is the `br.get_kappa()` result, indexed
sigma, grid point, temperature, band. -/
def thermalConductivitySummary (sigmas : List ℚ) (t_min t_max t_step : ℚ)
    (modeKappa : List (List (List (List Vec6))))
    (grid_points : Option (List ℕ)) : Option (List (List Char)) :=
  match grid_points with
  | some _ => none
  | none =>
    let temperatures := brTemperatures t_min t_max t_step
    some ((sigmas.zip modeKappa).flatMap (fun p =>
      sigmaBlock p.1 temperatures (kappaOfModeKappa temperatures.length p.2)))

/-- The lines processed by the collection loop of `get_forces_abinit`:
everything after the first line containing the marker (everything after
a missing marker is the empty list, as the file iterator is exhausted). -/
def forcesBody (lines : List (List Char)) : List (List Char) :=
  (lines.dropWhile (fun l => !hasSubstr forcesMarker l)).drop 1

/-- A force line `get_forces_abinit` accepts: more than three whitespace
fields, fields 1..3 parsing as floats. -/
def goodForceLine (l : List Char) : Prop :=
  3 < (splitWs l).length ∧
  ((pyFloatChars ((splitWs l).getD 1 [])).isSome ∧
   (pyFloatChars ((splitWs l).getD 2 [])).isSome ∧
   (pyFloatChars ((splitWs l).getD 3 [])).isSome)

/-- Spec-side description, to compare with `mkZnucl`: the distinct
atomic numbers of a list in order of first occurrence (`seen` carries
the values already emitted). -/
def firstOcc (seen : List ℤ) : List ℤ → List ℤ
  | [] => []
  | a :: l => if a ∈ seen then firstOcc seen l else a :: firstOcc (seen ++ [a]) l

/-- The whitespace tokens of the text written by `get_abinit_structure`,
laid out section by section (established by `splitWs_writer` below, under
the field-width side conditions). -/
def writerTokens (atoms : PyAtoms) : List (List Char) :=
  let znucl := mkZnucl atoms.numbers
  let typat := mkTypat znucl atoms.numbers
  let m := atoms.cell
  [kwNatom, natToDigits atoms.numbers.length, kwTypat] ++
    typat.map natToDigits ++
  [kwNtypat, natToDigits znucl.length, kwZnucl] ++
    znucl.map intToDigits ++
  [kwAcell, ['1'], ['1'], ['1'], kwRprim] ++
  [fixedContent 16 m.r0.x, fixedContent 16 m.r1.x, fixedContent 16 m.r2.x,
   fixedContent 16 m.r0.y, fixedContent 16 m.r1.y, fixedContent 16 m.r2.y,
   fixedContent 16 m.r0.z, fixedContent 16 m.r1.z, fixedContent 16 m.r2.z] ++
  [kwXred] ++
    atoms.scaledPositions.flatMap (fun v =>
      [fixedContent 16 v.x, fixedContent 16 v.y, fixedContent 16 v.z])

/-! ## Lemmas: `np.arange` -/

theorem npArange_length (start stop step : ℚ) :
    (npArange start stop step).length = (⌈(stop - start) / step⌉).toNat := by
  unfold npArange
  rw [List.length_map, List.length_range]

theorem npArange_getD (start stop step : ℚ) (k : ℕ)
    (hk : k < (npArange start stop step).length) :
    (npArange start stop step).getD k 0 = start + (k : ℚ) * step := by
  rw [npArange_length] at hk
  unfold npArange
  rw [List.getD_eq_getElem?_getD, List.getElem?_map, List.getElem?_range hk]
  rfl

/-- C3: in `get_imag_self_energy`, for every grid point, sigma and
temperature, the frequency sampling points form an evenly spaced
ascending sequence starting at 0 with step `frequency_step`, every point
is within half a step of the bound `2 * max(frequencies) + 4 * sigma`,
and the last point reaches within half a step below that bound. -/
theorem C3_frequency_sampling (freqs : List ℚ) (sigma fstep : ℚ)
    (hne : freqs ≠ []) (hstep : 0 < fstep)
    (hB : 0 ≤ npAmax freqs * 2 + sigma * 4) :
    iseFpoints freqs sigma fstep ≠ [] ∧
    (iseFpoints freqs sigma fstep).getD 0 0 = 0 ∧
    (∀ k, k < (iseFpoints freqs sigma fstep).length →
      (iseFpoints freqs sigma fstep).getD k 0 = (k : ℚ) * fstep) ∧
    (∀ k, k + 1 < (iseFpoints freqs sigma fstep).length →
      (iseFpoints freqs sigma fstep).getD k 0 <
        (iseFpoints freqs sigma fstep).getD (k + 1) 0) ∧
    (∀ x ∈ iseFpoints freqs sigma fstep,
      x ≤ npAmax freqs * 2 + sigma * 4 + fstep / 2) ∧
    npAmax freqs * 2 + sigma * 4 - fstep / 2 ≤
      (iseFpoints freqs sigma fstep).getD
        ((iseFpoints freqs sigma fstep).length - 1) 0 := by
  have hstep0 : fstep ≠ 0 := ne_of_gt hstep
  set B : ℚ := npAmax freqs * 2 + sigma * 4 with hBdef
  have harr : iseFpoints freqs sigma fstep = npArange 0 (B + fstep / 2) fstep := rfl
  set v : ℚ := (B + fstep / 2 - 0) / fstep with hvdef
  have hv0 : 0 < v := by
    rw [hvdef]
    apply div_pos _ hstep
    linarith
  have hlen : (iseFpoints freqs sigma fstep).length = (⌈v⌉).toNat := by
    rw [harr, npArange_length]
  have hceil : 0 < ⌈v⌉ := Int.ceil_pos.mpr hv0
  have hlenpos : 0 < (iseFpoints freqs sigma fstep).length := by
    rw [hlen]; omega
  have hgd : ∀ k, k < (iseFpoints freqs sigma fstep).length →
      (iseFpoints freqs sigma fstep).getD k 0 = (k : ℚ) * fstep := by
    intro k hk
    rw [harr] at hk ⊢
    rw [npArange_getD _ _ _ _ hk, zero_add]
  have hup : ∀ k : ℕ, k < (iseFpoints freqs sigma fstep).length →
      (k : ℚ) * fstep < B + fstep / 2 := by
    intro k hk
    rw [hlen] at hk
    have hkv : (k : ℚ) < v := by
      have h1 : (k : ℤ) < ⌈v⌉ := by omega
      have h2 : (k : ℤ) ≤ ⌈v⌉ - 1 := by omega
      have h3 : ((⌈v⌉ : ℚ) - 1) < v := by
        have := Int.ceil_lt_add_one v
        linarith
      calc (k : ℚ) ≤ (⌈v⌉ : ℚ) - 1 := by exact_mod_cast h2
        _ < v := h3
    have := (mul_lt_mul_right hstep).mpr hkv
    rw [hvdef] at this
    rw [div_mul_cancel₀ _ hstep0] at this
    linarith
  refine ⟨?_, ?_, hgd, ?_, ?_, ?_⟩
  · intro h
    rw [h] at hlenpos
    simp at hlenpos
  · have := hgd 0 hlenpos
    simpa using this
  · intro k hk
    have hk' : k < (iseFpoints freqs sigma fstep).length := by omega
    rw [hgd k hk', hgd (k + 1) hk]
    have : (k : ℚ) < (k : ℚ) + 1 := by linarith
    push_cast
    nlinarith
  · intro x hx
    obtain ⟨k, hk, rfl⟩ : ∃ k, k < (iseFpoints freqs sigma fstep).length ∧
        (iseFpoints freqs sigma fstep).getD k 0 = x := by
      obtain ⟨k, hk, hget⟩ := List.getElem_of_mem hx
      exact ⟨k, hk, by rw [List.getD_eq_getElem?_getD, List.getElem?_eq_getElem hk]; exact hget⟩
    rw [hgd k hk]
    exact le_of_lt (hup k hk)
  · set n := (iseFpoints freqs sigma fstep).length with hn
    have hk : n - 1 < n := by omega
    rw [hgd (n - 1) hk]
    have hvle : v ≤ (⌈v⌉ : ℚ) := Int.le_ceil v
    have hnv : ((n : ℚ) : ℚ) = ((⌈v⌉).toNat : ℚ) := by rw [hlen]
    have hceilnat : ((⌈v⌉).toNat : ℚ) = ((⌈v⌉ : ℤ) : ℚ) := by
      have : ((⌈v⌉).toNat : ℤ) = ⌈v⌉ := Int.toNat_of_nonneg (le_of_lt hceil)
      exact_mod_cast congrArg (fun z : ℤ => (z : ℚ)) this
    have hvn : v ≤ (n : ℚ) := by
      rw [hnv, hceilnat]; exact hvle
    have hsub : ((n - 1 : ℕ) : ℚ) = (n : ℚ) - 1 := by
      have : 1 ≤ n := hlenpos
      push_cast [Nat.cast_sub this]
      ring
    rw [hsub]
    have hmul : (v - 1) * fstep ≤ ((n : ℚ) - 1) * fstep := by
      apply mul_le_mul_of_nonneg_right _ (le_of_lt hstep)
      linarith
    have hvmul : v * fstep = B + fstep / 2 := by
      rw [hvdef, sub_zero, div_mul_cancel₀ _ hstep0]
    nlinarith

/-- Witness for C3 at frequencies `[2, 1]`, sigma `1/10`, step `1`:
the sampling points are `[0, 1, 2, 3, 4]`. -/
theorem C3_frequency_sampling_witness :
    iseFpoints [2, 1] (1 / 10) 1 ≠ [] ∧
    (iseFpoints [2, 1] (1 / 10) 1).getD 0 0 = 0 ∧
    (∀ k, k < (iseFpoints [2, 1] (1 / 10) 1).length →
      (iseFpoints [2, 1] (1 / 10) 1).getD k 0 = (k : ℚ) * 1) ∧
    (∀ k, k + 1 < (iseFpoints [2, 1] (1 / 10) 1).length →
      (iseFpoints [2, 1] (1 / 10) 1).getD k 0 <
        (iseFpoints [2, 1] (1 / 10) 1).getD (k + 1) 0) ∧
    (∀ x ∈ iseFpoints [2, 1] (1 / 10) 1,
      x ≤ npAmax [2, 1] * 2 + (1 / 10) * 4 + 1 / 2) ∧
    npAmax [2, 1] * 2 + (1 / 10) * 4 - 1 / 2 ≤
      (iseFpoints [2, 1] (1 / 10) 1).getD
        ((iseFpoints [2, 1] (1 / 10) 1).length - 1) 0 :=
  C3_frequency_sampling [2, 1] (1 / 10) 1 (by decide)
    (by with_unfolding_all decide) (by with_unfolding_all decide)

/-! ## Lemmas: band-index grouping -/

theorem groupPos_succ (bis : List (List ℕ)) (i : ℕ) :
    groupPos bis (i + 1) = groupPos bis i + (bis.getD i []).length := by
  unfold groupPos
  rw [List.range_succ, List.foldl_append]
  rfl

theorem groupPos_eq_take_sum (bis : List (List ℕ)) (i : ℕ) :
    groupPos bis i = ((bis.take i).map List.length).sum := by
  induction i with
  | zero => rfl
  | succ i ih =>
    rw [groupPos_succ, ih, List.take_succ, List.map_append, List.sum_append]
    rcases Nat.lt_or_ge i bis.length with h | h
    · rw [List.getElem?_eq_getElem h]
      simp [List.getD_eq_getElem?_getD, List.getElem?_eq_getElem h]
    · rw [List.getElem?_eq_none h]
      simp [List.getD_eq_getElem?_getD, List.getElem?_eq_none h]

theorem groupPos_mono (bis : List (List ℕ)) {i j : ℕ} (h : i ≤ j) :
    groupPos bis i ≤ groupPos bis j := by
  induction j with
  | zero => simp_all
  | succ j ih =>
    rcases Nat.lt_or_ge i (j + 1) with hij | hij
    · have := ih (by omega)
      rw [groupPos_succ]
      omega
    · have : i = j + 1 := by omega
      subst this
      exact le_refl _

theorem groupPos_add_le_total (bis : List (List ℕ)) (i : ℕ) (hi : i < bis.length) :
    groupPos bis i + (bis.getD i []).length ≤ (bis.map List.length).sum := by
  rw [← groupPos_succ]
  have h1 : groupPos bis (i + 1) ≤ groupPos bis bis.length :=
    groupPos_mono bis (by omega)
  have h2 : groupPos bis bis.length = (bis.map List.length).sum := by
    rw [groupPos_eq_take_sum, List.take_length]
  omega

theorem take_drop_eq_map_getD (row : List ℚ) :
    ∀ (m pos : ℕ), pos + m ≤ row.length →
      (row.drop pos).take m = (List.range m).map (fun k => row.getD (pos + k) 0) := by
  intro m
  induction m with
  | zero => simp
  | succ m ih =>
    intro pos h
    have hpos : pos < row.length := by omega
    rw [List.drop_eq_getElem_cons hpos, List.take_succ_cons,
      List.range_succ_eq_map, List.map_cons, ih (pos + 1) (by omega),
      List.map_map]
    refine congrArg₂ _ ?_ ?_
    · rw [Nat.add_zero, List.getD_eq_getElem _ _ hpos]
    · apply List.map_congr_left
      intro k _
      simp only [Function.comp_apply]
      congr 1
      omega

theorem pySlice_eq_map_getD (row : List ℚ) (pos m : ℕ) (h : pos + m ≤ row.length) :
    pySlice pos (pos + m) row =
      (List.range m).map (fun k => row.getD (pos + k) 0) := by
  unfold pySlice
  rw [Nat.add_sub_cancel_left]
  exact take_drop_eq_map_getD row m pos h

/-- C2: output aggregation for band group `i` takes the contiguous
self-energy column slice starting at the summed sizes of groups
`0..i-1` with width the size of group `i` (both in `get_imag_self_energy`
and, per temperature row, in `get_linewidth`), and the value written per
frequency point in `get_imag_self_energy` is the arithmetic mean of the
self-energy over the group's bands: the slice summed over bands divided
by the group size. -/
theorem C2_band_group_aggregation (bis : List (List ℕ)) (gamma : List (List ℚ))
    (i r : ℕ) (hi : i < bis.length)
    (hrow : (bis.map List.length).sum ≤ (gamma.getD r []).length)
    (hr : r < gamma.length)
    (hgrp : (bis.getD i []).length ≠ 0) :
    groupPos bis i = ((bis.take i).map List.length).sum ∧
    groupSlice bis i (gamma.getD r []) =
      (List.range (bis.getD i []).length).map
        (fun k => (gamma.getD r []).getD (groupPos bis i + k) 0) ∧
    (iseGroupValues bis i gamma).getD r 0 =
      ((List.range (bis.getD i []).length).map
        (fun k => (gamma.getD r []).getD (groupPos bis i + k) 0)).sum /
        ((bis.getD i []).length : ℚ) ∧
    (lwGroupSlice bis i gamma).getD r [] = groupSlice bis i (gamma.getD r []) := by
  have hb : groupPos bis i + (bis.getD i []).length ≤ (gamma.getD r []).length :=
    le_trans (groupPos_add_le_total bis i hi) hrow
  have hslice : groupSlice bis i (gamma.getD r []) =
      (List.range (bis.getD i []).length).map
        (fun k => (gamma.getD r []).getD (groupPos bis i + k) 0) := by
    unfold groupSlice
    exact pySlice_eq_map_getD _ _ _ hb
  refine ⟨groupPos_eq_take_sum bis i, hslice, ?_, ?_⟩
  · unfold iseGroupValues
    have hmap : (gamma.map (fun row =>
        (groupSlice bis i row).sum / ((bis.getD i []).length : ℚ))).getD r 0 =
        (groupSlice bis i (gamma.getD r [])).sum / ((bis.getD i []).length : ℚ) := by
      rw [List.getD_eq_getElem _ _ (by simpa using hr), List.getElem_map,
        List.getD_eq_getElem _ _ hr]
    rw [hmap, hslice]
  · unfold lwGroupSlice
    rw [List.getD_eq_getElem _ _ (by simpa using hr), List.getElem_map,
      List.getD_eq_getElem _ _ hr]

/-- Witness for C2 with groups `[[0, 1], [2]]`, a 2x3 self-energy array
and group index 1: the slice starts at column 2, has width 1, and the
written value is the single column divided by 1. -/
theorem C2_band_group_aggregation_witness :
    groupPos [[0, 1], [2]] 1 = (([[0, 1], [2]].take 1).map List.length).sum ∧
    groupSlice [[0, 1], [2]] 1 (([[1, 2, 3], [4, 5, 6]] : List (List ℚ)).getD 0 []) =
      (List.range ([[0, 1], [2]].getD 1 []).length).map
        (fun k => (([[1, 2, 3], [4, 5, 6]] : List (List ℚ)).getD 0 []).getD
          (groupPos [[0, 1], [2]] 1 + k) 0) ∧
    (iseGroupValues [[0, 1], [2]] 1 [[1, 2, 3], [4, 5, 6]]).getD 0 0 =
      ((List.range ([[0, 1], [2]].getD 1 []).length).map
        (fun k => (([[1, 2, 3], [4, 5, 6]] : List (List ℚ)).getD 0 []).getD
          (groupPos [[0, 1], [2]] 1 + k) 0)).sum /
        (([[0, 1], [2]].getD 1 []).length : ℚ) ∧
    (lwGroupSlice [[0, 1], [2]] 1 [[1, 2, 3], [4, 5, 6]]).getD 0 [] =
      groupSlice [[0, 1], [2]] 1 (([[1, 2, 3], [4, 5, 6]] : List (List ℚ)).getD 0 []) :=
  C2_band_group_aggregation [[0, 1], [2]] [[1, 2, 3], [4, 5, 6]] 1 0
    (by decide) (by decide) (by decide) (by decide)

/-! ## Lemmas: `N*value` multiplicity and `acell` units -/

theorem splitOnCharAux_no_sep (sep : Char) (a : List Char) (hs : sep ∉ a) :
    ∀ acc, splitOnCharAux sep a acc = [acc.reverse ++ a] := by
  induction a with
  | nil => intro acc; simp [splitOnCharAux]
  | cons c cs ih =>
    intro acc
    have hc : c ≠ sep := fun h => hs (by simp [h])
    have hcs : sep ∉ cs := fun h => hs (by simp [h])
    rw [splitOnCharAux, if_neg (by simpa using fun h => hc h)]
    rw [ih hcs]
    simp

theorem splitOnCharAux_first (sep : Char) (a b : List Char) (hs : sep ∉ a) :
    ∀ acc, splitOnCharAux sep (a ++ sep :: b) acc =
      (acc.reverse ++ a) :: splitOnCharAux sep b [] := by
  induction a with
  | nil =>
    intro acc
    rw [List.nil_append, splitOnCharAux, if_pos rfl]
    simp
  | cons c cs ih =>
    intro acc
    have hc : c ≠ sep := fun h => hs (by simp [h])
    have hcs : sep ∉ cs := fun h => hs (by simp [h])
    rw [List.cons_append, splitOnCharAux, if_neg (by simpa using fun h => hc h)]
    rw [ih hcs]
    simp

theorem pyIntChars_digits (ds : List Char) (h1 : ds ≠ []) (h2 : ds.all isDigitC) :
    pyIntChars ds = some ((digitsVal ds : ℕ) : ℤ) := by
  cases ds with
  | nil => exact absurd rfl h1
  | cons c rest =>
    have hc : isDigitC c = true := by
      rw [List.all_cons] at h2
      exact (Bool.and_eq_true _ _).mp h2 |>.1
    have hminus : c ≠ '-' := by
      intro h; subst h; exact absurd hc (by decide)
    have hplus : c ≠ '+' := by
      intro h; subst h; exact absurd hc (by decide)
    rw [pyIntChars, if_neg hminus, if_neg hplus]
    rw [parseUDigits, if_pos ⟨List.cons_ne_nil c rest, h2⟩]
    rfl

theorem star_not_in_digits (ds : List Char) (h : ds.all isDigitC) : '*' ∉ ds := by
  intro hc
  have := List.all_eq_true.mp h '*' hc
  exact absurd this (by decide)

/-- C6: a value token `N*v` (digits `N`, an asterisk, a numeric token
`v`) expands in `_get_numerical_values` to `N` copies of the parsed
value of `v`; a token without an asterisk yields exactly the one parsed
value. -/
theorem C6_multiplicity_token (nds vtok : List Char) (q : ℚ)
    (hn1 : nds ≠ []) (hn2 : nds.all isDigitC)
    (hv : '*' ∉ vtok)
    (hq : pyFloatChars vtok = some q) :
    get_numerical_values pyFloatChars (nds ++ '*' :: vtok) =
      some (List.replicate (digitsVal nds) q) ∧
    get_numerical_values pyFloatChars vtok = some [q] := by
  constructor
  · have hmem : '*' ∈ nds ++ '*' :: vtok := by simp
    have hnds : '*' ∉ nds := star_not_in_digits nds hn2
    rw [get_numerical_values, if_pos hmem]
    rw [splitOnChar, splitOnCharAux_first '*' nds vtok hnds []]
    rw [splitOnCharAux_no_sep '*' vtok hv []]
    simp only [List.reverse_nil, List.nil_append, List.headD_cons,
      List.getElem?_cons_succ, List.getElem?_cons_zero]
    rw [pyIntChars_digits nds hn1 hn2]
    simp [hq, pyReplicate]
  · rw [get_numerical_values, if_neg hv, hq]
    rfl

/-- Witness for C6: the token `3*1.5` yields three copies of `1.5`, and
the token `1.5` alone yields one value. -/
theorem C6_multiplicity_token_witness :
    get_numerical_values pyFloatChars (['3'] ++ '*' :: "1.5".data) =
      some (List.replicate (digitsVal ['3']) (3 / 2 : ℚ)) ∧
    get_numerical_values pyFloatChars "1.5".data = some [(3 / 2 : ℚ)] :=
  C6_multiplicity_token ['3'] "1.5".data (3 / 2) (by decide) (by decide)
    (by decide) (by with_unfolding_all decide)

/-- C7: three numeric `acell` tokens followed by a token of at least six
characters whose first six letters case-insensitively spell `angstr`
store the three values divided by `Bohr`; without such a trailing token
the three values are stored unchanged. -/
theorem C7_acell_angstrom (t1 t2 t3 u : List Char) (q1 q2 q3 : ℚ)
    (h1 : get_numerical_values pyFloatChars t1 = some [q1])
    (h2 : get_numerical_values pyFloatChars t2 = some [q2])
    (h3 : get_numerical_values pyFloatChars t3 = some [q3]) :
    set_acell [t1, t2, t3] = some [q1, q2, q3] ∧
    (6 ≤ u.length → (u.take 6).map Char.toLower = angstrChars →
      set_acell [t1, t2, t3, u] = some [q1 / Bohr, q2 / Bohr, q3 / Bohr]) ∧
    (¬ (6 ≤ u.length ∧ (u.take 6).map Char.toLower = angstrChars) →
      set_acell [t1, t2, t3, u] = some [q1, q2, q3]) := by
  have hloop3 : acellLoop [t1, t2, t3] [] = some ([q1, q2, q3], false) := by
    simp [acellLoop, h1, h2, h3]
  have hloop4 : acellLoop [t1, t2, t3, u] [] =
      some (([q1, q2, q3] : List ℚ), isAngstromTok u) := by
    simp [acellLoop, h1, h2, h3]
  refine ⟨?_, ?_, ?_⟩
  · rw [set_acell, hloop3]
    simp
  · intro hlen htake
    have hA : isAngstromTok u = true := by
      unfold isAngstromTok
      rw [Bool.and_eq_true]
      exact ⟨decide_eq_true hlen, decide_eq_true htake⟩
    rw [set_acell, hloop4, hA]
    simp
  · intro hno
    have hA : isAngstromTok u = false := by
      unfold isAngstromTok
      rw [Bool.and_eq_false_iff]
      by_cases hlen : 6 ≤ u.length
      · right
        have : ¬ (u.take 6).map Char.toLower = angstrChars := fun ht => hno ⟨hlen, ht⟩
        exact decide_eq_false this
      · left
        exact decide_eq_false hlen
    rw [set_acell, hloop4, hA]
    simp

/-- Witness for C7 at tokens `1.0`, `2.5`, `3` with trailing `Angstrom`:
with the unit marker the stored values are divided by `Bohr`, without it
they are stored unchanged. -/
theorem C7_acell_angstrom_witness :
    set_acell ["1.0".data, "2.5".data, "3".data] = some [1, 5 / 2, 3] ∧
    (6 ≤ "Angstrom".data.length →
      ("Angstrom".data.take 6).map Char.toLower = angstrChars →
      set_acell ["1.0".data, "2.5".data, "3".data, "Angstrom".data] =
        some [1 / Bohr, (5 / 2) / Bohr, 3 / Bohr]) ∧
    (¬ (6 ≤ "Angstrom".data.length ∧
        ("Angstrom".data.take 6).map Char.toLower = angstrChars) →
      set_acell ["1.0".data, "2.5".data, "3".data, "Angstrom".data] =
        some [1, 5 / 2, 3]) :=
  C7_acell_angstrom "1.0".data "2.5".data "3".data "Angstrom".data 1 (5 / 2) 3
    (by with_unfolding_all decide) (by with_unfolding_all decide)
    (by with_unfolding_all decide)

/-! ## Lemmas: gamma resumption (`read_gamma`) -/

theorem getD_map_of_lt (f : α → β) (l : List α) (i : ℕ) (hi : i < l.length)
    (d : β) (d' : α) : (l.map f).getD i d = f (l.getD i d') := by
  rw [List.getD_eq_getElem?_getD, List.getElem?_map, List.getElem?_eq_getElem hi,
    List.getD_eq_getElem?_getD, List.getElem?_eq_getElem hi]
  rfl

theorem seqRow_of_isSome (l : List (Option α)) (d : α) (h : ∀ x ∈ l, x.isSome) :
    seqRow l = some (l.map (fun o => o.getD d)) := by
  induction l with
  | nil => rfl
  | cons o rest ih =>
    have ho : o.isSome := h o (by simp)
    obtain ⟨a, rfl⟩ := Option.isSome_iff_exists.mp ho
    rw [seqRow, ih (fun x hx => h x (by simp [hx]))]
    rfl

theorem read_gamma_mem (store : GammaStore) (mesh meshDivisors : List ℕ)
    (gridPoint : ℕ) (sigma : ℚ) (a : GammaArr)
    (h : read_gamma_from_hdf5 store mesh meshDivisors gridPoint sigma = some a) :
    (⟨mesh, meshDivisors, gridPoint, sigma⟩, a) ∈ store.entries := by
  unfold read_gamma_from_hdf5 at h
  obtain ⟨e, hfind, hsnd⟩ : ∃ e, store.entries.find? (fun e =>
      decide (e.1 = ⟨mesh, meshDivisors, gridPoint, sigma⟩)) = some e ∧ e.2 = a := by
    cases hf : store.entries.find? (fun e =>
        decide (e.1 = ⟨mesh, meshDivisors, gridPoint, sigma⟩)) with
    | none => rw [hf] at h; exact absurd h (by simp)
    | some e => exact ⟨e, rfl, by rw [hf] at h; simpa using h⟩
  have hmem := List.mem_of_find?_eq_some hfind
  have hkey := List.find?_some hfind
  have hkey' : e.1 = ⟨mesh, meshDivisors, gridPoint, sigma⟩ := of_decide_eq_true hkey
  have : e = (⟨mesh, meshDivisors, gridPoint, sigma⟩, a) := by
    cases e
    simp_all
  rw [← this]
  exact hmem

/-- C4: with `read_gamma`, `get_thermal_conductivity` retrieves, for
every sigma and grid point of the run, the persisted gamma keyed by the
current run's mesh numbers, mesh divisors, grid point and sigma, injects
the table via `set_gamma` before `calculate_kappa` (so the table used is
independent of any recomputation), and only an array persisted under the
exactly matching key is ever used. -/
theorem C4_read_gamma_resumption (store : GammaStore) (br0 : BrState)
    (sigmas : List ℚ) (grid_points : Option (List ℕ))
    (recompute : ℚ → ℕ → GammaArr)
    (hpresent : ∀ s ∈ sigmas, ∀ gp ∈ (set_grid_points br0 grid_points).gridPoints,
      (read_gamma_from_hdf5 store br0.meshNumbers br0.meshDivisors gp s).isSome) :
    ∃ G : List (List GammaArr),
      thermalConductivityGamma store recompute br0 sigmas grid_points true = some G ∧
      (∀ rc : ℚ → ℕ → GammaArr,
        thermalConductivityGamma store rc br0 sigmas grid_points true = some G) ∧
      G.length = sigmas.length ∧
      (∀ i j, i < sigmas.length →
        j < (set_grid_points br0 grid_points).gridPoints.length →
        some ((G.getD i []).getD j []) =
          read_gamma_from_hdf5 store br0.meshNumbers br0.meshDivisors
            ((set_grid_points br0 grid_points).gridPoints.getD j 0)
            (sigmas.getD i 0) ∧
        (GammaKey.mk br0.meshNumbers br0.meshDivisors
            ((set_grid_points br0 grid_points).gridPoints.getD j 0)
            (sigmas.getD i 0), (G.getD i []).getD j []) ∈ store.entries) := by
  set br := set_grid_points br0 grid_points with hbr
  have hmesh : br.meshNumbers = br0.meshNumbers := rfl
  have hdiv : br.meshDivisors = br0.meshDivisors := rfl
  set table := sigmas.map (fun s => br.gridPoints.map (fun gp =>
    read_gamma_from_hdf5 store br.meshNumbers br.meshDivisors gp s)) with htable
  have htlen : table.length = sigmas.length := by rw [htable, List.length_map]
  have hrows : ∀ row ∈ table, ∀ x ∈ row, Option.isSome x := by
    intro row hrow x hx
    rw [htable] at hrow
    obtain ⟨s, hs, rfl⟩ := List.mem_map.mp hrow
    obtain ⟨gp, hgp, rfl⟩ := List.mem_map.mp hx
    exact hpresent s hs gp hgp
  set G := table.map (fun row => row.map (fun o => o.getD [])) with hG
  have hGlen : G.length = sigmas.length := by rw [hG, List.length_map, htlen]
  have hseq : seqTable table = some G := by
    unfold seqTable
    have hmap : table.map seqRow = table.map (fun row =>
        some (row.map (fun o => o.getD []))) := by
      apply List.map_congr_left
      intro row hrow
      exact seqRow_of_isSome row [] (hrows row hrow)
    rw [hmap]
    have hsome : ∀ x ∈ table.map (fun row =>
        some (row.map (fun o => o.getD []))), Option.isSome x := by
      intro x hx
      obtain ⟨row, _, rfl⟩ := List.mem_map.mp hx
      rfl
    rw [seqRow_of_isSome _ [] hsome]
    rw [hG, List.map_map]
    rfl
  have hphase : readGammaPhase store sigmas br = some (set_gamma br G) := by
    unfold readGammaPhase
    rw [← htable, hseq]
    rfl
  have hmain : ∀ rc : ℚ → ℕ → GammaArr,
      thermalConductivityGamma store rc br0 sigmas grid_points true = some G := by
    intro rc
    unfold thermalConductivityGamma
    rw [← hbr, if_pos rfl, hphase]
    rfl
  refine ⟨G, hmain recompute, hmain, hGlen, ?_⟩
  intro i j hi hj
  have hti : i < table.length := by rw [htlen]; exact hi
  have hcell : (G.getD i []).getD j [] =
      (read_gamma_from_hdf5 store br.meshNumbers br.meshDivisors
        (br.gridPoints.getD j 0) (sigmas.getD i 0)).getD [] := by
    have h1 : G.getD i [] = (table.getD i []).map (fun o => o.getD []) :=
      getD_map_of_lt _ table i hti [] []
    have h2 : table.getD i [] = br.gridPoints.map (fun gp =>
        read_gamma_from_hdf5 store br.meshNumbers br.meshDivisors gp
          (sigmas.getD i 0)) := by
      rw [htable]
      exact getD_map_of_lt _ sigmas i hi [] 0
    rw [h1, h2, List.map_map]
    exact getD_map_of_lt _ br.gridPoints j hj [] 0
  have hjmem : br.gridPoints.getD j 0 ∈ br.gridPoints := by
    rw [List.getD_eq_getElem _ _ hj]
    exact List.getElem_mem hj
  have himem : sigmas.getD i 0 ∈ sigmas := by
    rw [List.getD_eq_getElem _ _ hi]
    exact List.getElem_mem hi
  have hsome := hpresent (sigmas.getD i 0) himem (br.gridPoints.getD j 0) hjmem
  obtain ⟨a, ha⟩ := Option.isSome_iff_exists.mp hsome
  have ha' : read_gamma_from_hdf5 store br.meshNumbers br.meshDivisors
      (br.gridPoints.getD j 0) (sigmas.getD i 0) = some a := ha
  constructor
  · rw [hcell, ha']
    exact ha.symm
  · have hval : (G.getD i []).getD j [] = a := by rw [hcell, ha']; rfl
    rw [hval]
    exact read_gamma_mem store br0.meshNumbers br0.meshDivisors _ _ a ha

/-- Witness for C4: one sigma `1/10`, full grid-point set `[0]` on mesh
`[2, 2, 2]`, and a store persisting exactly that key. -/
theorem C4_read_gamma_resumption_witness :
    ∃ G : List (List GammaArr),
      thermalConductivityGamma
        ⟨[(⟨[2, 2, 2], [1, 1, 1], 0, 1 / 10⟩, [[5]])]⟩
        (fun _ _ => [])
        ⟨[2, 2, 2], [1, 1, 1], [0], [], none⟩ [1 / 10] none true = some G ∧
      (∀ rc : ℚ → ℕ → GammaArr,
        thermalConductivityGamma
          ⟨[(⟨[2, 2, 2], [1, 1, 1], 0, 1 / 10⟩, [[5]])]⟩
          rc ⟨[2, 2, 2], [1, 1, 1], [0], [], none⟩ [1 / 10] none true = some G) ∧
      G.length = ([1 / 10] : List ℚ).length ∧
      (∀ i j, i < ([1 / 10] : List ℚ).length →
        j < (set_grid_points ⟨[2, 2, 2], [1, 1, 1], [0], [], none⟩ none).gridPoints.length →
        some ((G.getD i []).getD j []) =
          read_gamma_from_hdf5 ⟨[(⟨[2, 2, 2], [1, 1, 1], 0, 1 / 10⟩, [[5]])]⟩
            [2, 2, 2] [1, 1, 1]
            ((set_grid_points ⟨[2, 2, 2], [1, 1, 1], [0], [], none⟩ none).gridPoints.getD j 0)
            (([1 / 10] : List ℚ).getD i 0) ∧
        (GammaKey.mk [2, 2, 2] [1, 1, 1]
            ((set_grid_points ⟨[2, 2, 2], [1, 1, 1], [0], [], none⟩ none).gridPoints.getD j 0)
            (([1 / 10] : List ℚ).getD i 0), (G.getD i []).getD j []) ∈
          ([(⟨[2, 2, 2], [1, 1, 1], 0, 1 / 10⟩, [[5]])] :
            List (GammaKey × GammaArr))) :=
  C4_read_gamma_resumption ⟨[(⟨[2, 2, 2], [1, 1, 1], 0, 1 / 10⟩, [[5]])]⟩
    ⟨[2, 2, 2], [1, 1, 1], [0], [], none⟩ [1 / 10] none (fun _ _ => [])
    (by with_unfolding_all decide)

/-! ## Lemmas: `get_forces_abinit` -/

theorem forcesLoop_stops_false :
    ∀ (k : ℕ) (post : List (List Char)) (n : ℕ) (acc : List Vec3),
      acc.length + k < n → k < post.length →
      (splitWs (post.getD k [])).length ≤ 3 →
      (∀ j, j < k → goodForceLine (post.getD j [])) →
      forcesLoop n post acc = some .falseRes := by
  intro k
  induction k with
  | zero =>
    intro post n acc hn hk hshort _
    cases post with
    | nil => simp at hk
    | cons l ls =>
      have : (splitWs l).length ≤ 3 := by simpa using hshort
      rw [forcesLoop, if_neg (by omega)]
  | succ k ih =>
    intro post n acc hn hk hshort hbefore
    cases post with
    | nil => simp at hk
    | cons l ls =>
      obtain ⟨hlong, hp1, hp2, hp3⟩ := hbefore 0 (by omega)
      simp only [List.getD_cons_zero] at hlong hp1 hp2 hp3
      obtain ⟨a, ha⟩ := Option.isSome_iff_exists.mp hp1
      obtain ⟨b, hb⟩ := Option.isSome_iff_exists.mp hp2
      obtain ⟨c, hc⟩ := Option.isSome_iff_exists.mp hp3
      rw [forcesLoop, if_pos hlong, ha, hb, hc]
      simp only
      rw [if_neg (by simp; omega)]
      apply ih ls n (⟨a, b, c⟩ :: acc) (by simp; omega) (by simpa using hk)
        (by simpa using hshort)
      intro j hj
      have := hbefore (j + 1) (by omega)
      simpa using this

theorem forcesLoop_collects_rows :
    ∀ (post : List (List Char)) (n : ℕ) (acc : List Vec3),
      acc.length < n →
      (∀ j, j < post.length → acc.length + j < n → goodForceLine (post.getD j [])) →
      ∃ l, forcesLoop n post acc = some (.rows l) ∧
        l.length = min n (acc.length + post.length) := by
  intro post
  induction post with
  | nil =>
    intro n acc hn _
    refine ⟨acc.reverse, rfl, ?_⟩
    simp [Nat.min_eq_right (le_of_lt hn)]
  | cons l ls ih =>
    intro n acc hn hall
    obtain ⟨hlong, hp1, hp2, hp3⟩ := hall 0 (by simp) (by omega)
    simp only [List.getD_cons_zero] at hlong hp1 hp2 hp3
    obtain ⟨a, ha⟩ := Option.isSome_iff_exists.mp hp1
    obtain ⟨b, hb⟩ := Option.isSome_iff_exists.mp hp2
    obtain ⟨c, hc⟩ := Option.isSome_iff_exists.mp hp3
    rw [forcesLoop, if_pos hlong, ha, hb, hc]
    simp only
    by_cases hstop : (⟨a, b, c⟩ :: acc : List Vec3).length = n
    · rw [if_pos hstop]
      refine ⟨(⟨a, b, c⟩ :: acc).reverse, rfl, ?_⟩
      simp only [List.length_reverse]
      simp only [List.length_cons] at hstop
      simp [List.length_cons]
      omega
    · rw [if_neg hstop]
      have hlt : (⟨a, b, c⟩ :: acc : List Vec3).length < n := by
        simp only [List.length_cons] at hstop ⊢
        omega
      obtain ⟨l', hl', hlen⟩ := ih n (⟨a, b, c⟩ :: acc) hlt (by
        intro j hj hjn
        have := hall (j + 1) (by simpa using Nat.succ_lt_succ hj)
          (by simp only [List.length_cons] at hjn; omega)
        simpa using this)
      refine ⟨l', hl', ?_⟩
      rw [hlen]
      simp only [List.length_cons]
      omega

/-- C10 (amended: for a positive atom count): `get_forces_abinit`
returns `False` when a line with at most three whitespace fields occurs
after the marker before `num_atom` rows were collected, and otherwise
returns `min num_atom (number of post-marker lines)` rows — at most
`num_atom`, fewer without error when the file ends first. -/
theorem C10_forces_parsing (lines : List (List Char)) (numAtom : ℕ)
    (h1 : 1 ≤ numAtom) :
    (∀ k, k < numAtom → k < (forcesBody lines).length →
      (splitWs ((forcesBody lines).getD k [])).length ≤ 3 →
      (∀ j, j < k → goodForceLine ((forcesBody lines).getD j [])) →
      get_forces_abinit lines numAtom = some .falseRes) ∧
    ((∀ j, j < (forcesBody lines).length → j < numAtom →
        goodForceLine ((forcesBody lines).getD j [])) →
      ∃ l, get_forces_abinit lines numAtom = some (.rows l) ∧
        l.length = min numAtom (forcesBody lines).length) := by
  have hdef : get_forces_abinit lines numAtom =
      forcesLoop numAtom (forcesBody lines) [] := rfl
  constructor
  · intro k hk hkpost hshort hbefore
    rw [hdef]
    exact forcesLoop_stops_false k (forcesBody lines) numAtom []
      (by simpa using hk) hkpost hshort hbefore
  · intro hall
    rw [hdef]
    obtain ⟨l, hl, hlen⟩ := forcesLoop_collects_rows (forcesBody lines) numAtom []
      (by simpa using h1) (by
        intro j hj hjn
        exact hall j hj (by simpa using hjn))
    exact ⟨l, hl, by simpa using hlen⟩

/-- Witness for C10 at a marker line followed by one good line and one
short line, with atom count 2: the short line aborts with `False`; with
only good lines the rows are collected. -/
theorem C10_forces_parsing_witness :
    (∀ k, k < 2 → k < (forcesBody [forcesMarker, "f 1.0 2.0 3.0".data, "x 1".data]).length →
      (splitWs ((forcesBody [forcesMarker, "f 1.0 2.0 3.0".data, "x 1".data]).getD k [])).length ≤ 3 →
      (∀ j, j < k → goodForceLine ((forcesBody [forcesMarker, "f 1.0 2.0 3.0".data, "x 1".data]).getD j [])) →
      get_forces_abinit [forcesMarker, "f 1.0 2.0 3.0".data, "x 1".data] 2 =
        some .falseRes) ∧
    ((∀ j, j < (forcesBody [forcesMarker, "f 1.0 2.0 3.0".data, "x 1".data]).length →
        j < 2 →
        goodForceLine ((forcesBody [forcesMarker, "f 1.0 2.0 3.0".data, "x 1".data]).getD j [])) →
      ∃ l, get_forces_abinit [forcesMarker, "f 1.0 2.0 3.0".data, "x 1".data] 2 =
        some (.rows l) ∧
        l.length = min 2 (forcesBody [forcesMarker, "f 1.0 2.0 3.0".data, "x 1".data]).length) :=
  C10_forces_parsing [forcesMarker, "f 1.0 2.0 3.0".data, "x 1".data] 2 (by decide)

/-- Counterexample to C10 as frozen: at atom count 0 the loop's
`len(forces) == num_atom` stop test never fires, so a file with one good
post-marker line yields one row — more than `num_atom` rows. -/
theorem C10_forces_parsing_counterexample :
    get_forces_abinit [forcesMarker, "f 1.0 2.0 3.0".data] 0 =
      some (.rows [⟨1, 2, 3⟩]) ∧
    ¬ (([⟨1, 2, 3⟩] : List Vec3).length ≤ 0) := by
  with_unfolding_all decide

/-! ## Lemmas: missing mandatory tags -/

theorem getTag_setTag_same (c : Collected) (t : ATag) (v : List (List Char)) :
    (c.setTag t v).getTag t = some v := by
  cases t <;> rfl

theorem getTag_setTag_ne (c : Collected) (t u : ATag) (v : List (List Char))
    (h : t ≠ u) : (c.setTag t v).getTag u = c.getTag u := by
  cases t <;> cases u <;> first | rfl | exact absurd rfl h

theorem keywordOf_kw (t : ATag) : keywordOf t.kw = some t := by
  cases t <;> decide

theorem keywordOf_eq_some (tok : List Char) (t : ATag)
    (h : keywordOf tok = some t) : tok = t.kw := by
  unfold keywordOf at h
  split_ifs at h with h1 h2 h3 h4 h5 h6 h7
  case _ => injection h with h'; subst h'; exact h1
  case _ => injection h with h'; subst h'; exact h2
  case _ => injection h with h'; subst h'; exact h3
  case _ => injection h with h'; subst h'; exact h4
  case _ => injection h with h'; subst h'; exact h5
  case _ => injection h with h'; subst h'; exact h6
  case _ => injection h with h'; subst h'; exact h7

theorem mem_cons_iff_of_ne (a b : List Char) (l : List (List Char)) (h : a ≠ b) :
    (a ∈ b :: l) ↔ a ∈ l := by
  constructor
  · intro hm
    rcases List.mem_cons.mp hm with hh | hh
    · exact absurd hh h
    · exact hh
  · exact List.mem_cons_of_mem b

theorem collect_foldl_tag_none :
    ∀ (toks : List (List Char)) (st : Option ATag × Collected),
      (∀ u, st.1 = some u → (st.2.getTag u).isSome) →
      (∀ u, (toks.foldl collectStep st).1 = some u →
        (((toks.foldl collectStep st).2).getTag u).isSome) ∧
      (∀ u : ATag, ((toks.foldl collectStep st).2.getTag u = none ↔
        (st.2.getTag u = none ∧ u.kw ∉ toks))) := by
  intro toks
  induction toks with
  | nil =>
    intro st hInv
    exact ⟨hInv, fun u => by simp⟩
  | cons tok rest ih =>
    intro st hInv
    rw [List.foldl_cons]
    cases hkw : keywordOf tok with
    | some t =>
      have hst' : collectStep st tok = (some t, st.2.setTag t []) := by
        unfold collectStep
        rw [hkw]
      have htok : tok = t.kw := keywordOf_eq_some tok t hkw
      have hInv' : ∀ u, (collectStep st tok).1 = some u →
          (((collectStep st tok).2).getTag u).isSome := by
        intro u hu
        rw [hst'] at hu ⊢
        dsimp only at hu ⊢
        injection hu with hu
        subst hu
        rw [getTag_setTag_same]
        rfl
      obtain ⟨ih1, ih2⟩ := ih (collectStep st tok) hInv'
      refine ⟨ih1, ?_⟩
      intro u
      rw [ih2 u, hst']
      dsimp only
      by_cases hut : u = t
      · subst hut
        rw [getTag_setTag_same]
        constructor
        · intro ⟨hc, _⟩
          exact absurd hc (by simp)
        · intro ⟨_, hmem⟩
          exact absurd (by rw [htok]; exact List.mem_cons_self _ _) hmem
      · rw [getTag_setTag_ne _ _ _ _ (fun h => hut h.symm)]
        have hne : u.kw ≠ tok := by
          intro hh
          have huk := keywordOf_kw u
          rw [hh, hkw] at huk
          exact hut (Option.some.inj huk).symm
        rw [and_congr_right_iff]
        intro _
        rw [mem_cons_iff_of_ne _ _ _ hne]
    | none =>
      have hne : ∀ u : ATag, u.kw ≠ tok := by
        intro u hh
        have huk := keywordOf_kw u
        rw [hh, hkw] at huk
        exact absurd huk (by simp)
      cases hcur : st.1 with
      | none =>
        have hst' : collectStep st tok = st := by
          unfold collectStep
          rw [hkw, hcur]
        rw [hst']
        obtain ⟨ih1, ih2⟩ := ih st hInv
        refine ⟨ih1, ?_⟩
        intro u
        rw [ih2 u, and_congr_right_iff]
        intro _
        rw [mem_cons_iff_of_ne _ _ _ (hne u)]
      | some t =>
        have hst' : collectStep st tok =
            (some t, st.2.setTag t ((st.2.getTag t).getD [] ++ [tok])) := by
          unfold collectStep
          rw [hkw, hcur]
        have hInv' : ∀ u, (collectStep st tok).1 = some u →
            (((collectStep st tok).2).getTag u).isSome := by
          intro u hu
          rw [hst'] at hu ⊢
          dsimp only at hu ⊢
          injection hu with hu
          subst hu
          rw [getTag_setTag_same]
          rfl
        obtain ⟨ih1, ih2⟩ := ih (collectStep st tok) hInv'
        refine ⟨ih1, ?_⟩
        intro u
        rw [ih2 u, hst']
        dsimp only
        by_cases hut : u = t
        · subst hut
          rw [getTag_setTag_same]
          have hu : (st.2.getTag u).isSome := hInv u hcur
          constructor
          · intro ⟨hc, _⟩
            exact absurd hc (by simp)
          · intro ⟨hc, _⟩
            rw [hc] at hu
            exact absurd hu (by simp)
        · rw [getTag_setTag_ne _ _ _ _ (fun h => hut h.symm)]
          rw [and_congr_right_iff]
          intro _
          rw [mem_cons_iff_of_ne _ _ _ (hne u)]

theorem collectTokens_natom_none (toks : List (List Char)) :
    (collectTokens toks).natom = none ↔ kwNatom ∉ toks := by
  have h := (collect_foldl_tag_none toks (none, {})
    (by intro u hu; exact absurd hu (by simp))).2 ATag.natom
  unfold collectTokens
  rw [show ((toks.foldl collectStep (none, {})).2).natom =
      ((toks.foldl collectStep (none, {})).2).getTag ATag.natom from rfl, h]
  simp [ATag.kw, Collected.getTag]

theorem collectTokens_ntypat_none (toks : List (List Char)) :
    (collectTokens toks).ntypat = none ↔ kwNtypat ∉ toks := by
  have h := (collect_foldl_tag_none toks (none, {})
    (by intro u hu; exact absurd hu (by simp))).2 ATag.ntypat
  unfold collectTokens
  rw [show ((toks.foldl collectStep (none, {})).2).ntypat =
      ((toks.foldl collectStep (none, {})).2).getTag ATag.ntypat from rfl, h]
  simp [ATag.kw, Collected.getTag]

/-- C8: an input with no `natom` token or no `ntypat` token makes
`AbinitIn` construction (and hence `read_abinit`) report a tag that is
indeed missing and halt; no structure is ever returned. -/
theorem C8_missing_mandatory_tag (s : List Char)
    (h : kwNatom ∉ splitWs s ∨ kwNtypat ∉ splitWs s) :
    ∃ t : ATag, abinitVariables s = .error (.missingTag t) ∧
      t.kw ∉ splitWs s ∧ ∀ a : PyAtoms, read_abinit s ≠ .ok a := by
  by_cases hn : (collectTokens (splitWs s)).natom = none
  · refine ⟨.natom, ?_, ?_, ?_⟩
    · unfold abinitVariables abinitCollect
      simp only [hn]
    · exact (collectTokens_natom_none _).mp hn
    · intro a hok
      have habv : abinitVariables s = .error (.missingTag .natom) := by
        unfold abinitVariables abinitCollect
        simp only [hn]
      have : read_abinit s = .error (.missingTag .natom) := by
        unfold read_abinit
        rw [habv]
        rfl
      rw [this] at hok
      exact absurd hok (by simp)
  · have hkn : kwNatom ∈ splitWs s := by
      by_contra hmem
      exact hn ((collectTokens_natom_none _).mpr hmem)
    have hknt : kwNtypat ∉ splitWs s := by
      rcases h with h | h
      · exact absurd hkn h
      · exact h
    have hnt : (collectTokens (splitWs s)).ntypat = none :=
      (collectTokens_ntypat_none _).mpr hknt
    obtain ⟨x, hx⟩ : ∃ x, (collectTokens (splitWs s)).natom = some x := by
      cases hc : (collectTokens (splitWs s)).natom with
      | none => exact absurd hc hn
      | some x => exact ⟨x, rfl⟩
    have habv : abinitVariables s = .error (.missingTag .ntypat) := by
      unfold abinitVariables abinitCollect
      simp only [hx, hnt]
    refine ⟨.ntypat, habv, hknt, ?_⟩
    intro a hok
    have : read_abinit s = .error (.missingTag .ntypat) := by
      unfold read_abinit
      rw [habv]
      rfl
    rw [this] at hok
    exact absurd hok (by simp)

/-- Witness for C8 at an input that has an `ntypat` section but no
`natom` token. -/
theorem C8_missing_mandatory_tag_witness :
    ∃ t : ATag,
      abinitVariables "ntypat 1\nacell 1 1 1\n".data = .error (.missingTag t) ∧
      t.kw ∉ splitWs "ntypat 1\nacell 1 1 1\n".data ∧
      ∀ a : PyAtoms, read_abinit "ntypat 1\nacell 1 1 1\n".data ≠ .ok a :=
  C8_missing_mandatory_tag "ntypat 1\nacell 1 1 1\n".data
    (Or.inl (by with_unfolding_all decide))

/-! ## Lemmas: writer `znucl` / `typat` safety -/

theorem mkZnucl_foldl_eq (l : List ℤ) :
    ∀ z : List ℤ,
      l.foldl (fun z n => if n ∈ z then z else z ++ [n]) z = z ++ firstOcc z l := by
  induction l with
  | nil => intro z; simp [firstOcc]
  | cons a l ih =>
    intro z
    rw [List.foldl_cons, firstOcc]
    by_cases ha : a ∈ z
    · rw [if_pos ha, if_pos ha, ih z]
    · rw [if_neg ha, if_neg ha, ih (z ++ [a])]
      simp

theorem mkZnucl_eq_firstOcc (numbers : List ℤ) :
    mkZnucl numbers = firstOcc [] numbers := by
  unfold mkZnucl
  rw [mkZnucl_foldl_eq numbers []]
  rfl

theorem mkZnucl_mem (numbers : List ℤ) :
    ∀ n, n ∈ mkZnucl numbers ↔ n ∈ numbers := by
  have key : ∀ (l z : List ℤ) (n : ℤ),
      n ∈ l.foldl (fun z n => if n ∈ z then z else z ++ [n]) z ↔ n ∈ z ∨ n ∈ l := by
    intro l
    induction l with
    | nil => intro z n; simp
    | cons a l ih =>
      intro z n
      rw [List.foldl_cons]
      by_cases ha : a ∈ z
      · rw [if_pos ha, ih]
        constructor
        · rintro (h | h)
          · exact Or.inl h
          · exact Or.inr (List.mem_cons_of_mem a h)
        · rintro (h | h)
          · exact Or.inl h
          · rcases List.mem_cons.mp h with rfl | h
            · exact Or.inl ha
            · exact Or.inr h
      · rw [if_neg ha, ih]
        constructor
        · rintro (h | h)
          · rcases List.mem_append.mp h with h | h
            · exact Or.inl h
            · simp at h
              subst h
              exact Or.inr (List.mem_cons_self _ _)
          · exact Or.inr (List.mem_cons_of_mem a h)
        · rintro (h | h)
          · exact Or.inl (List.mem_append_left _ h)
          · rcases List.mem_cons.mp h with rfl | h
            · exact Or.inl (List.mem_append_right _ (by simp))
            · exact Or.inr h
  intro n
  have := key numbers [] n
  unfold mkZnucl
  rw [this]
  simp

theorem mkZnucl_nodup (numbers : List ℤ) : (mkZnucl numbers).Nodup := by
  have key : ∀ (l z : List ℤ), z.Nodup →
      (l.foldl (fun z n => if n ∈ z then z else z ++ [n]) z).Nodup := by
    intro l
    induction l with
    | nil => intro z hz; exact hz
    | cons a l ih =>
      intro z hz
      rw [List.foldl_cons]
      by_cases ha : a ∈ z
      · rw [if_pos ha]; exact ih z hz
      · rw [if_neg ha]
        apply ih
        rw [List.nodup_append]
        exact ⟨hz, List.nodup_singleton a, by simpa using ha⟩
  exact key numbers [] List.nodup_nil

theorem mkTypat_bounds (znucl numbers : List ℤ)
    (hmem : ∀ n ∈ numbers, n ∈ znucl) :
    ∀ t ∈ mkTypat znucl numbers, 1 ≤ t ∧ t ≤ znucl.length := by
  intro t ht
  obtain ⟨n, hn, rfl⟩ := List.mem_map.mp ht
  have : znucl.indexOf n < znucl.length := List.indexOf_lt_length.mpr (hmem n hn)
  omega

theorem mkTypat_lookup (numbers : List ℤ) (i : ℕ) (hi : i < numbers.length) :
    pyIndex (mkZnucl numbers)
      (((mkTypat (mkZnucl numbers) numbers).getD i 0 : ℤ) - 1) =
      some (numbers.getD i 0) := by
  have hget : (mkTypat (mkZnucl numbers) numbers).getD i 0 =
      (mkZnucl numbers).indexOf (numbers.getD i 0) + 1 := by
    unfold mkTypat
    exact getD_map_of_lt _ numbers i hi 0 0
  rw [hget]
  have hmem : numbers.getD i 0 ∈ numbers := by
    rw [List.getD_eq_getElem _ _ hi]
    exact List.getElem_mem hi
  have hz : numbers.getD i 0 ∈ mkZnucl numbers := (mkZnucl_mem numbers _).mpr hmem
  unfold pyIndex
  rw [if_pos (by push_cast; omega)]
  have hcast : (((mkZnucl numbers).indexOf (numbers.getD i 0) + 1 : ℕ) : ℤ) - 1 =
      (((mkZnucl numbers).indexOf (numbers.getD i 0) : ℕ) : ℤ) := by push_cast; ring
  rw [show (((mkZnucl numbers).indexOf (numbers.getD i 0) + 1 : ℕ) : ℤ) - 1 =
      (((mkZnucl numbers).indexOf (numbers.getD i 0) : ℕ) : ℤ) from hcast]
  rw [Int.toNat_natCast]
  rw [List.get?_eq_getElem?]
  exact List.getElem?_indexOf hz

/-! ## Lemmas: whitespace tokenization -/

theorem splitWsAux_ws_nil (c : Char) (cs : List Char) (hc : isWsC c = true) :
    splitWsAux (c :: cs) [] = splitWsAux cs [] := by
  rw [splitWsAux, if_pos hc]
  rfl

theorem splitWsAux_ws_acc (c : Char) (cs acc : List Char) (hc : isWsC c = true)
    (ha : acc ≠ []) : splitWsAux (c :: cs) acc = acc.reverse :: splitWsAux cs [] := by
  rw [splitWsAux, if_pos hc, if_neg (by simpa using ha)]

theorem splitWsAux_nonws (c : Char) (cs acc : List Char) (hc : isWsC c = false) :
    splitWsAux (c :: cs) acc = splitWsAux cs (c :: acc) := by
  rw [splitWsAux, if_neg (by simp [hc])]

theorem splitWsAux_chunk (t : List Char) :
    ∀ (rest acc : List Char), (∀ c ∈ t, isWsC c = false) →
      splitWsAux (t ++ rest) acc = splitWsAux rest (t.reverse ++ acc) := by
  induction t with
  | nil => intro rest acc _; simp
  | cons c cs ih =>
    intro rest acc ht
    rw [List.cons_append, splitWsAux_nonws c _ _ (ht c (by simp))]
    rw [ih rest (c :: acc) (fun x hx => ht x (by simp [hx]))]
    simp

theorem splitWsAux_spaces (k : ℕ) :
    ∀ rest : List Char,
      splitWsAux (List.replicate k ' ' ++ rest) [] = splitWsAux rest [] := by
  induction k with
  | zero => intro rest; simp
  | succ k ih =>
    intro rest
    rw [List.replicate_succ, List.cons_append,
      splitWsAux_ws_nil ' ' _ (by decide), ih rest]

theorem splitWsAux_token (t : List Char) (c : Char) (rest : List Char)
    (ht0 : t ≠ []) (ht : ∀ x ∈ t, isWsC x = false) (hc : isWsC c = true) :
    splitWsAux (t ++ c :: rest) [] = t :: splitWsAux rest [] := by
  rw [splitWsAux_chunk t (c :: rest) [] ht, List.append_nil,
    splitWsAux_ws_acc c rest t.reverse hc (by simpa using ht0)]
  simp

theorem splitWsAux_last (t : List Char) (ht0 : t ≠ [])
    (ht : ∀ x ∈ t, isWsC x = false) : splitWsAux t [] = [t] := by
  have := splitWsAux_chunk t [] [] ht
  rw [List.append_nil] at this
  rw [this, splitWsAux, List.append_nil, if_neg (by simpa using ht0)]
  simp

theorem padLeft_cons_of_lt (w : ℕ) (p : Char) (s : List Char)
    (h : s.length < w) : padLeft w p s = p :: padLeft (w - 1) p s := by
  unfold padLeft
  rw [show w - s.length = (w - 1 - s.length) + 1 by omega, List.replicate_succ]
  rfl

theorem splitWsAux_padded_token (w : ℕ) (t : List Char) (c : Char)
    (rest : List Char) (ht0 : t ≠ []) (ht : ∀ x ∈ t, isWsC x = false)
    (hc : isWsC c = true) :
    splitWsAux (padLeft w ' ' t ++ c :: rest) [] = t :: splitWsAux rest [] := by
  unfold padLeft
  rw [List.append_assoc, splitWsAux_spaces _ _, splitWsAux_token t c rest ht0 ht hc]

theorem splitWsAux_flatMap_run {α : Type} (f : α → List Char) (c : Char)
    (hc : isWsC c = true) (l : List α) :
    ∀ (rest : List Char) (acc : List Char),
      (∀ x ∈ l, f x ≠ [] ∧ ∀ ch ∈ f x, isWsC ch = false) →
      splitWsAux (l.flatMap (fun x => ' ' :: f x) ++ c :: rest) acc =
        (if acc.isEmpty then [] else [acc.reverse]) ++ l.map f ++
          splitWsAux rest [] := by
  induction l with
  | nil =>
    intro rest acc _
    rw [List.flatMap_nil, List.nil_append]
    cases acc with
    | nil => rw [splitWsAux_ws_nil c rest hc]; simp
    | cons a as =>
      rw [splitWsAux_ws_acc c rest (a :: as) hc (by simp)]
      simp
  | cons x l ih =>
    intro rest acc hf
    obtain ⟨hne, hnws⟩ := hf x (by simp)
    rw [List.flatMap_cons, List.append_assoc, List.cons_append]
    have hstep : splitWsAux (' ' :: (f x ++ (l.flatMap (fun x => ' ' :: f x) ++ c :: rest))) acc =
        (if acc.isEmpty then [] else [acc.reverse]) ++
          splitWsAux (f x ++ (l.flatMap (fun x => ' ' :: f x) ++ c :: rest)) [] := by
      cases acc with
      | nil => rw [splitWsAux_ws_nil ' ' _ (by decide)]; simp
      | cons a as =>
        rw [splitWsAux_ws_acc ' ' _ (a :: as) (by decide) (by simp)]
        simp
    rw [hstep, splitWsAux_chunk (f x) _ [] hnws, List.append_nil]
    rw [ih rest (f x).reverse (fun y hy => hf y (by simp [hy]))]
    have : ((f x).reverse.isEmpty) = false := by
      cases hfx : f x with
      | nil => exact absurd hfx hne
      | cons b bs => simp [hfx]
    rw [this]
    simp

/-! ## Lemmas: decimal digit strings -/

theorem digitChar_lt_ten (d : ℕ) (h : d < 10) :
    isDigitC (digitChar d) = true ∧ digitVal (digitChar d) = d ∧
      isWsC (digitChar d) = false := by
  interval_cases d <;> exact ⟨by decide, by decide, by decide⟩

theorem digitsVal_append_singleton (xs : List Char) (c : Char) :
    digitsVal (xs ++ [c]) = 10 * digitsVal xs + digitVal c := by
  unfold digitsVal
  rw [List.foldl_append]
  rfl

theorem natToDigitsAux_spec :
    ∀ (fuel n : ℕ), n < 10 ^ (fuel + 1) →
      (natToDigitsAux (fuel + 1) n ≠ [] ∧
       (∀ c ∈ natToDigitsAux (fuel + 1) n, isDigitC c = true) ∧
       digitsVal (natToDigitsAux (fuel + 1) n) = n) := by
  intro fuel
  induction fuel with
  | zero =>
    intro n hn
    have h10 : n < 10 := by simpa using hn
    rw [show (0 + 1 : ℕ) = 1 from rfl, natToDigitsAux, if_pos h10]
    obtain ⟨hd, hv, _⟩ := digitChar_lt_ten n h10
    refine ⟨by simp, ?_, ?_⟩
    · intro c hch
      simp at hch
      subst hch
      exact hd
    · unfold digitsVal
      simp [hv]
  | succ fuel ih =>
    intro n hn
    by_cases h10 : n < 10
    · rw [natToDigitsAux, if_pos h10]
      obtain ⟨hd, hv, _⟩ := digitChar_lt_ten n h10
      refine ⟨by simp, ?_, ?_⟩
      · intro c hch
        simp at hch
        subst hch
        exact hd
      · unfold digitsVal
        simp [hv]
    · rw [natToDigitsAux, if_neg h10]
      have hdiv : n / 10 < 10 ^ (fuel + 1) := by
        rw [Nat.div_lt_iff_lt_mul (by norm_num)]
        calc n < 10 ^ (fuel + 1 + 1) := hn
          _ = 10 ^ (fuel + 1) * 10 := by ring
      obtain ⟨hne, hdig, hval⟩ := ih (n / 10) hdiv
      have hmod : n % 10 < 10 := Nat.mod_lt n (by norm_num)
      obtain ⟨hd, hv, _⟩ := digitChar_lt_ten (n % 10) hmod
      refine ⟨by simp, ?_, ?_⟩
      · intro c hch
        rcases List.mem_append.mp hch with hch | hch
        · exact hdig c hch
        · simp at hch
          subst hch
          exact hd
      · rw [digitsVal_append_singleton, hval, hv]
        omega

theorem natToDigits_spec (n : ℕ) :
    natToDigits n ≠ [] ∧ (∀ c ∈ natToDigits n, isDigitC c = true) ∧
      digitsVal (natToDigits n) = n := by
  unfold natToDigits
  exact natToDigitsAux_spec n n (by
    calc n < 10 ^ n := Nat.lt_pow_self (by norm_num) n
      _ ≤ 10 ^ (n + 1) := Nat.pow_le_pow_right (by norm_num) (by omega))

theorem natToDigitsAux_length_le :
    ∀ (fuel n k : ℕ), n < 10 ^ (k + 1) →
      (natToDigitsAux fuel n).length ≤ k + 1 := by
  intro fuel
  induction fuel with
  | zero =>
    intro n k _
    simp [natToDigitsAux]
  | succ fuel ih =>
    intro n k hn
    by_cases h10 : n < 10
    · rw [natToDigitsAux, if_pos h10]
      simp
    · rw [natToDigitsAux, if_neg h10]
      have hk : 1 ≤ k := by
        by_contra hk
        have : k = 0 := by omega
        subst this
        simp at hn
        omega
      have hdiv : n / 10 < 10 ^ (k - 1 + 1) := by
        rw [Nat.div_lt_iff_lt_mul (by norm_num)]
        calc n < 10 ^ (k + 1) := hn
          _ = 10 ^ (k - 1 + 1) * 10 := by
            rw [← pow_succ]
            congr 1
            omega
      have := ih (n / 10) (k - 1) hdiv
      rw [List.length_append]
      simp only [List.length_cons, List.length_nil]
      omega

theorem natToDigits_length_le (n k : ℕ) (hn : n < 10 ^ (k + 1)) :
    (natToDigits n).length ≤ k + 1 :=
  natToDigitsAux_length_le (n + 1) n k hn

/-! ## Lemmas: numeric tokens as characters -/

theorem digit_not_ws (c : Char) (h : isDigitC c = true) : isWsC c = false := by
  have h' := of_decide_eq_true h
  have h1 : c ≠ ' ' := by intro e; subst e; exact absurd h (by decide)
  have h2 : c ≠ '\n' := by intro e; subst e; exact absurd h (by decide)
  have h3 : c ≠ '\t' := by intro e; subst e; exact absurd h (by decide)
  have h4 : c ≠ '\r' := by intro e; subst e; exact absurd h (by decide)
  simp [isWsC, h1, h2, h3, h4]

theorem natToDigits_nonws (n : ℕ) : ∀ c ∈ natToDigits n, isWsC c = false := by
  intro c hc
  exact digit_not_ws c ((natToDigits_spec n).2.1 c hc)

theorem pyIntChars_natToDigits (n : ℕ) :
    pyIntChars (natToDigits n) = some (n : ℤ) := by
  obtain ⟨hne, hdig, hval⟩ := natToDigits_spec n
  rw [pyIntChars_digits _ hne (List.all_eq_true.mpr hdig), hval]

theorem parseUDigits_natToDigits (n : ℕ) :
    parseUDigits (natToDigits n) = some n := by
  obtain ⟨hne, hdig, hval⟩ := natToDigits_spec n
  rw [parseUDigits, if_pos ⟨hne, List.all_eq_true.mpr hdig⟩, hval]

theorem pyIntChars_intToDigits (z : ℤ) : pyIntChars (intToDigits z) = some z := by
  unfold intToDigits
  by_cases hz : z < 0
  · rw [if_pos hz]
    obtain ⟨hne, hdig, _⟩ := natToDigits_spec z.natAbs
    cases hnd : natToDigits z.natAbs with
    | nil => exact absurd hnd hne
    | cons c cs =>
      rw [pyIntChars, if_pos rfl, ← hnd, parseUDigits_natToDigits]
      show some (-(z.natAbs : ℤ)) = some z
      congr 1
      omega
  · rw [if_neg hz, pyIntChars_natToDigits]
    congr 1
    omega

theorem intToDigits_nonempty (z : ℤ) : intToDigits z ≠ [] := by
  unfold intToDigits
  obtain ⟨hne, _, _⟩ := natToDigits_spec z.natAbs
  by_cases hz : z < 0
  · rw [if_pos hz]; simp
  · rw [if_neg hz]; exact hne

theorem intToDigits_nonws (z : ℤ) : ∀ c ∈ intToDigits z, isWsC c = false := by
  intro c hc
  unfold intToDigits at hc
  by_cases hz : z < 0
  · rw [if_pos hz] at hc
    rcases List.mem_cons.mp hc with rfl | hc
    · decide
    · exact natToDigits_nonws _ c hc
  · rw [if_neg hz] at hc
    exact natToDigits_nonws _ c hc

theorem keywordOf_numeric_none (c : Char) (cs : List Char)
    (hc : isDigitC c = true ∨ c = '-') : keywordOf (c :: cs) = none := by
  have hfirst : ∀ a : Char, (∀ s, c :: cs = a :: s → False) → True := fun _ _ => trivial
  have hval := hc
  have hne : ∀ (kw : List Char) (a : Char) (tl : List Char), kw = a :: tl →
      (isDigitC a = false) → (a ≠ '-') → c :: cs ≠ kw := by
    intro kw a tl hkw hda hma h
    rw [hkw] at h
    injection h with h1 _
    subst h1
    rcases hval with hv | hv
    · rw [hv] at hda
      exact absurd hda (by simp)
    · exact hma hv
  have h1 : c :: cs ≠ kwAcell := hne kwAcell 'a' "cell".data rfl (by decide) (by decide)
  have h2 : c :: cs ≠ kwNatom := hne kwNatom 'n' "atom".data rfl (by decide) (by decide)
  have h3 : c :: cs ≠ kwNtypat := hne kwNtypat 'n' "typat".data rfl (by decide) (by decide)
  have h4 : c :: cs ≠ kwRprim := hne kwRprim 'r' "prim".data rfl (by decide) (by decide)
  have h5 : c :: cs ≠ kwTypat := hne kwTypat 't' "ypat".data rfl (by decide) (by decide)
  have h6 : c :: cs ≠ kwXred := hne kwXred 'x' "red".data rfl (by decide) (by decide)
  have h7 : c :: cs ≠ kwZnucl := hne kwZnucl 'z' "nucl".data rfl (by decide) (by decide)
  unfold keywordOf
  rw [if_neg h1, if_neg h2, if_neg h3, if_neg h4, if_neg h5, if_neg h6, if_neg h7]

theorem keywordOf_natToDigits (n : ℕ) : keywordOf (natToDigits n) = none := by
  obtain ⟨hne, hdig, _⟩ := natToDigits_spec n
  cases hnd : natToDigits n with
  | nil => exact absurd hnd hne
  | cons c cs =>
    exact keywordOf_numeric_none c cs (Or.inl (hdig c (by rw [hnd]; simp)))

theorem keywordOf_intToDigits (z : ℤ) : keywordOf (intToDigits z) = none := by
  unfold intToDigits
  by_cases hz : z < 0
  · rw [if_pos hz]
    exact keywordOf_numeric_none '-' _ (Or.inr rfl)
  · rw [if_neg hz]
    exact keywordOf_natToDigits z.natAbs

/-! ## Lemmas: fixed-point rendering and parsing -/

theorem den_one_eq_num (x : ℚ) (h : x.den = 1) : x = (x.num : ℚ) := by
  conv_lhs => rw [← Rat.num_div_den x]
  rw [h]
  simp

theorem floor_add_half_int (m : ℤ) : ⌊(m : ℚ) + 1 / 2⌋ = m := by
  rw [add_comm, Int.floor_add_int]
  norm_num

theorem fixedContent_shape (d : ℕ) (q : ℚ) (hq : (q * (10 : ℚ) ^ d).den = 1) :
    fixedContent d q =
      (if (q * (10 : ℚ) ^ d).num < 0 then ['-'] else []) ++
        natToDigits ((q * (10 : ℚ) ^ d).num.natAbs / 10 ^ d) ++
        '.' :: zeroPad d (natToDigits ((q * (10 : ℚ) ^ d).num.natAbs % 10 ^ d)) := by
  unfold fixedContent
  have hz : ⌊q * (10 : ℚ) ^ d + 1 / 2⌋ = (q * (10 : ℚ) ^ d).num := by
    have := den_one_eq_num _ hq
    rw [this]
    exact floor_add_half_int _
  rw [hz]

theorem digitsVal_replicate_zero (k : ℕ) (ds : List Char) :
    digitsVal (List.replicate k '0' ++ ds) = digitsVal ds := by
  unfold digitsVal
  rw [List.foldl_append]
  have : List.foldl (fun a c => 10 * a + digitVal c) 0 (List.replicate k '0') = 0 := by
    induction k with
    | zero => rfl
    | succ k ih => rw [List.replicate_succ, List.foldl_cons]; exact ih
  rw [this]

theorem zeroPad_length (k : ℕ) (ds : List Char) (h : ds.length ≤ k) :
    (zeroPad k ds).length = k := by
  unfold zeroPad
  rw [List.length_append, List.length_replicate]
  omega

theorem zeroPad_all_digits (k : ℕ) (ds : List Char)
    (h : ∀ c ∈ ds, isDigitC c = true) :
    ∀ c ∈ zeroPad k ds, isDigitC c = true := by
  intro c hc
  unfold zeroPad at hc
  rcases List.mem_append.mp hc with hc | hc
  · have := List.eq_of_mem_replicate hc
    subst this
    decide
  · exact h c hc

theorem takeWhile_append_stop (p : Char → Bool) (xs : List Char) (y : Char)
    (ys : List Char) (hxs : ∀ x ∈ xs, p x = true) (hy : p y = false) :
    (xs ++ y :: ys).takeWhile p = xs ∧ (xs ++ y :: ys).dropWhile p = y :: ys := by
  induction xs with
  | nil =>
    simp [List.takeWhile_cons, List.dropWhile_cons, hy]
  | cons x xs ih =>
    have hx : p x = true := hxs x (by simp)
    obtain ⟨ih1, ih2⟩ := ih (fun a ha => hxs a (by simp [ha]))
    rw [List.cons_append, List.takeWhile_cons, List.dropWhile_cons]
    rw [hx]
    simp only [if_true]
    exact ⟨by rw [ih1], by rw [ih2]⟩

theorem pyUFloatChars_digits_dot (a b d : ℕ) (hd : 1 ≤ d) (hb : b < 10 ^ d) :
    pyUFloatChars (natToDigits a ++ '.' :: zeroPad d (natToDigits b)) =
      some ((a : ℚ) + (b : ℚ) / (10 : ℚ) ^ d) := by
  obtain ⟨hane, hadig, haval⟩ := natToDigits_spec a
  obtain ⟨hbne, hbdig, hbval⟩ := natToDigits_spec b
  have hblen : (natToDigits b).length ≤ d := by
    have : b < 10 ^ ((d - 1) + 1) := by
      rw [show d - 1 + 1 = d by omega]
      exact hb
    have := natToDigits_length_le b (d - 1) this
    omega
  obtain ⟨htake, hdrop⟩ := takeWhile_append_stop isDigitC (natToDigits a) '.'
    (zeroPad d (natToDigits b)) hadig (by decide)
  unfold pyUFloatChars
  rw [htake, hdrop]
  simp only
  rw [if_pos ⟨List.all_eq_true.mpr (zeroPad_all_digits d _ hbdig), Or.inl hane⟩]
  rw [haval]
  rw [show digitsVal (zeroPad d (natToDigits b)) = b by
    unfold zeroPad
    rw [digitsVal_replicate_zero, hbval]]
  rw [zeroPad_length d _ hblen]

theorem pyFloatChars_of_digit_head (s : List Char) (c : Char) (cs : List Char)
    (hs : s = c :: cs) (hc : isDigitC c = true) :
    pyFloatChars s = pyUFloatChars s := by
  subst hs
  have h1 : c ≠ '-' := by intro e; subst e; exact absurd hc (by decide)
  have h2 : c ≠ '+' := by intro e; subst e; exact absurd hc (by decide)
  rw [pyFloatChars, if_neg h1, if_neg h2]

theorem pyFloatChars_cons (c : Char) (rest : List Char) :
    pyFloatChars (c :: rest) =
      if c = '-' then (pyUFloatChars rest).map (fun q => -q)
      else if c = '+' then pyUFloatChars rest
      else pyUFloatChars (c :: rest) := rfl

theorem pyFloatChars_fixedContent (d : ℕ) (q : ℚ) (hd : 1 ≤ d)
    (hq : (q * (10 : ℚ) ^ d).den = 1) :
    pyFloatChars (fixedContent d q) = some q := by
  set m : ℤ := (q * (10 : ℚ) ^ d).num with hm
  have hqm : q * (10 : ℚ) ^ d = (m : ℚ) := den_one_eq_num _ hq
  have hE : ((10 : ℚ) ^ d) ≠ 0 := by positivity
  have hqval : q = (m : ℚ) / (10 : ℚ) ^ d := by
    rw [eq_div_iff hE, hqm]
  have hmod : m.natAbs % 10 ^ d < 10 ^ d :=
    Nat.mod_lt _ (Nat.pos_pow_of_pos d (by norm_num))
  have hcore := pyUFloatChars_digits_dot (m.natAbs / 10 ^ d) (m.natAbs % 10 ^ d)
    d hd hmod
  have hsplit : (10 ^ d) * (m.natAbs / 10 ^ d) + m.natAbs % 10 ^ d = m.natAbs :=
    Nat.div_add_mod _ _
  have hval : ((m.natAbs / 10 ^ d : ℕ) : ℚ) + ((m.natAbs % 10 ^ d : ℕ) : ℚ) /
      (10 : ℚ) ^ d = (m.natAbs : ℚ) / (10 : ℚ) ^ d := by
    rw [eq_div_iff hE, add_mul, div_mul_cancel₀ _ hE]
    calc ((m.natAbs / 10 ^ d : ℕ) : ℚ) * (10 : ℚ) ^ d + ((m.natAbs % 10 ^ d : ℕ) : ℚ)
        = (((10 ^ d) * (m.natAbs / 10 ^ d) + m.natAbs % 10 ^ d : ℕ) : ℚ) := by
          push_cast
          ring
      _ = (m.natAbs : ℚ) := by rw [hsplit]
  rw [fixedContent_shape d q hq, ← hm]
  by_cases hneg : m < 0
  · rw [if_pos hneg]
    rw [List.singleton_append, List.cons_append, pyFloatChars_cons, if_pos rfl]
    rw [hcore]
    show some (-(((m.natAbs / 10 ^ d : ℕ) : ℚ) +
      ((m.natAbs % 10 ^ d : ℕ) : ℚ) / (10 : ℚ) ^ d)) = some q
    rw [hval]
    congr 1
    rw [hqval]
    have h1 : (m.natAbs : ℤ) = -m := by omega
    have h3 : ((m.natAbs : ℕ) : ℚ) = -(m : ℚ) := by
      have h2 : ((m.natAbs : ℤ) : ℚ) = ((-m : ℤ) : ℚ) := by rw [h1]
      rw [Int.cast_natCast] at h2
      rw [h2]
      push_cast
      ring
    rw [h3]
    ring
  · rw [if_neg hneg, List.nil_append]
    obtain ⟨hane, hadig, _⟩ := natToDigits_spec (m.natAbs / 10 ^ d)
    cases hnd : natToDigits (m.natAbs / 10 ^ d) with
    | nil => exact absurd hnd hane
    | cons c cs =>
      have hcdig : isDigitC c = true := hadig c (by rw [hnd]; simp)
      have h1c : c ≠ '-' := by intro e; subst e; exact absurd hcdig (by decide)
      have h2c : c ≠ '+' := by intro e; subst e; exact absurd hcdig (by decide)
      rw [List.cons_append, pyFloatChars_cons, if_neg h1c, if_neg h2c]
      rw [← List.cons_append, ← hnd]
      rw [hcore, hval]
      congr 1
      rw [hqval]
      congr 1
      have h1 : (m.natAbs : ℤ) = m := by omega
      have h2 : ((m.natAbs : ℤ) : ℚ) = ((m : ℤ) : ℚ) := by rw [h1]
      rw [Int.cast_natCast] at h2
      exact h2

theorem fixedContent_chars (d : ℕ) (q : ℚ) :
    ∀ c ∈ fixedContent d q, isDigitC c = true ∨ c = '-' ∨ c = '.' := by
  intro c hc
  unfold fixedContent at hc
  simp only at hc
  rcases List.mem_append.mp hc with hc | hc
  · rcases List.mem_append.mp hc with hc | hc
    · by_cases hz : ⌊q * (10 : ℚ) ^ d + 1 / 2⌋ < 0
      · rw [if_pos hz] at hc
        simp at hc
        exact Or.inr (Or.inl hc)
      · rw [if_neg hz] at hc
        simp at hc
    · exact Or.inl ((natToDigits_spec _).2.1 c hc)
  · rcases List.mem_cons.mp hc with rfl | hc
    · exact Or.inr (Or.inr rfl)
    · exact Or.inl (zeroPad_all_digits _ _ ((natToDigits_spec _).2.1) c hc)

theorem fixedContent_ne_nil (d : ℕ) (q : ℚ) : fixedContent d q ≠ [] := by
  unfold fixedContent
  simp only
  intro h
  rcases List.append_eq_nil.mp h with ⟨h1, h2⟩
  rcases List.append_eq_nil.mp h1 with ⟨_, h3⟩
  exact (natToDigits_spec _).1 h3

theorem fixedContent_nonws (d : ℕ) (q : ℚ) :
    ∀ c ∈ fixedContent d q, isWsC c = false := by
  intro c hc
  rcases fixedContent_chars d q c hc with h | h | h
  · exact digit_not_ws c h
  · subst h; decide
  · subst h; decide

theorem fixedContent_no_star (d : ℕ) (q : ℚ) : '*' ∉ fixedContent d q := by
  intro hc
  rcases fixedContent_chars d q '*' hc with h | h | h
  · exact absurd h (by decide)
  · exact absurd h (by decide)
  · exact absurd h (by decide)

theorem keywordOf_fixedContent (d : ℕ) (q : ℚ) :
    keywordOf (fixedContent d q) = none := by
  cases hfc : fixedContent d q with
  | nil => exact absurd hfc (fixedContent_ne_nil d q)
  | cons c cs =>
    have hmem : c ∈ fixedContent d q := by rw [hfc]; simp
    rcases fixedContent_chars d q c hmem with h | h | h
    · exact keywordOf_numeric_none c cs (Or.inl h)
    · exact keywordOf_numeric_none c cs (Or.inr h)
    · subst h
      have hne : ∀ (kw : List Char) (a : Char) (tl : List Char), kw = a :: tl →
          a ≠ '.' → ('.' :: cs : List Char) ≠ kw := by
        intro kw a tl hkw hma hh
        rw [hkw] at hh
        injection hh with h1 _
        exact hma h1.symm
      unfold keywordOf
      rw [if_neg (hne kwAcell 'a' "cell".data rfl (by decide)),
        if_neg (hne kwNatom 'n' "atom".data rfl (by decide)),
        if_neg (hne kwNtypat 'n' "typat".data rfl (by decide)),
        if_neg (hne kwRprim 'r' "prim".data rfl (by decide)),
        if_neg (hne kwTypat 't' "ypat".data rfl (by decide)),
        if_neg (hne kwXred 'x' "red".data rfl (by decide)),
        if_neg (hne kwZnucl 'z' "nucl".data rfl (by decide))]

theorem get_numerical_values_fixedContent (q : ℚ)
    (hq : (q * (10 : ℚ) ^ (16 : ℕ)).den = 1) :
    get_numerical_values pyFloatChars (fixedContent 16 q) = some [q] := by
  rw [get_numerical_values, if_neg (fixedContent_no_star 16 q),
    pyFloatChars_fixedContent 16 q (by norm_num) hq]
  rfl

theorem get_numerical_values_natToDigits_int (n : ℕ) :
    get_numerical_values pyIntChars (natToDigits n) = some [(n : ℤ)] := by
  rw [get_numerical_values,
    if_neg (star_not_in_digits _ (List.all_eq_true.mpr (natToDigits_spec n).2.1)),
    pyIntChars_natToDigits]
  rfl

theorem intToDigits_no_star (z : ℤ) : '*' ∉ intToDigits z := by
  intro hc
  unfold intToDigits at hc
  by_cases hz : z < 0
  · rw [if_pos hz] at hc
    rcases List.mem_cons.mp hc with h | h
    · exact absurd h (by decide)
    · exact star_not_in_digits _
        (List.all_eq_true.mpr (natToDigits_spec _).2.1) h
  · rw [if_neg hz] at hc
    exact star_not_in_digits _
      (List.all_eq_true.mpr (natToDigits_spec _).2.1) hc

theorem get_numerical_values_intToDigits (z : ℤ) :
    get_numerical_values pyIntChars (intToDigits z) = some [z] := by
  rw [get_numerical_values, if_neg (intToDigits_no_star z),
    pyIntChars_intToDigits]
  rfl

theorem fixedContent_length_le_19 (q : ℚ)
    (hq : (q * (10 : ℚ) ^ (16 : ℕ)).den = 1) (hlo : -10 < q) (hhi : q < 100) :
    (fixedContent 16 q).length ≤ 19 := by
  set m : ℤ := (q * (10 : ℚ) ^ (16 : ℕ)).num with hm
  have hqm : q * (10 : ℚ) ^ (16 : ℕ) = (m : ℚ) := den_one_eq_num _ hq
  have hub : m < 10 ^ 18 := by
    have h1 : q * (10 : ℚ) ^ (16 : ℕ) < 100 * (10 : ℚ) ^ (16 : ℕ) := by
      apply mul_lt_mul_of_pos_right hhi
      positivity
    rw [hqm] at h1
    have h2 : (100 : ℚ) * (10 : ℚ) ^ (16 : ℕ) = ((10 ^ 18 : ℤ) : ℚ) := by norm_num
    rw [h2] at h1
    exact_mod_cast h1
  have hlb : -(10 ^ 17) < m := by
    have h1 : (-10 : ℚ) * (10 : ℚ) ^ (16 : ℕ) < q * (10 : ℚ) ^ (16 : ℕ) := by
      apply mul_lt_mul_of_pos_right hlo
      positivity
    rw [hqm] at h1
    have h2 : ((-10 : ℚ)) * (10 : ℚ) ^ (16 : ℕ) = ((-(10 ^ 17) : ℤ) : ℚ) := by norm_num
    rw [h2] at h1
    exact_mod_cast h1
  have hmodlen : (natToDigits (m.natAbs % 10 ^ 16)).length ≤ 16 := by
    have : m.natAbs % 10 ^ 16 < 10 ^ (15 + 1) :=
      Nat.mod_lt _ (by norm_num)
    have := natToDigits_length_le _ 15 this
    omega
  have hzp : (zeroPad 16 (natToDigits (m.natAbs % 10 ^ 16))).length = 16 :=
    zeroPad_length _ _ hmodlen
  rw [fixedContent_shape 16 q hq, ← hm]
  rw [List.length_append, List.length_append, List.length_cons, hzp]
  by_cases hneg : m < 0
  · rw [if_pos hneg]
    have habs : m.natAbs < 10 ^ 17 := by omega
    have hdivlt : m.natAbs / 10 ^ 16 < 10 ^ (0 + 1) := by
      rw [Nat.div_lt_iff_lt_mul (by norm_num)]
      calc m.natAbs < 10 ^ 17 := habs
        _ = 10 ^ (0 + 1) * 10 ^ 16 := by norm_num
    have := natToDigits_length_le _ 0 hdivlt
    simp only [List.length_singleton]
    omega
  · rw [if_neg hneg]
    have habs : m.natAbs < 10 ^ 18 := by omega
    have hdivlt : m.natAbs / 10 ^ 16 < 10 ^ (1 + 1) := by
      rw [Nat.div_lt_iff_lt_mul (by norm_num)]
      calc m.natAbs < 10 ^ 18 := habs
        _ = 10 ^ (1 + 1) * 10 ^ 16 := by norm_num
    have := natToDigits_length_le _ 1 hdivlt
    simp only [List.length_nil]
    omega

/-! ## Lemmas: tokenizing the written structure file -/

theorem splitWsAux_flatMap_run_nil {α : Type} (f : α → List Char) (c : Char)
    (hc : isWsC c = true) (l : List α) (rest : List Char)
    (hf : ∀ x ∈ l, f x ≠ [] ∧ ∀ ch ∈ f x, isWsC ch = false) :
    splitWsAux (l.flatMap (fun x => ' ' :: f x) ++ c :: rest) [] =
      l.map f ++ splitWsAux rest [] := by
  rw [splitWsAux_flatMap_run f c hc l rest [] hf]
  simp

theorem splitWsAux_token_flatMap {α : Type} (t : List Char) (f : α → List Char)
    (c : Char) (l : List α) (rest : List Char) (ht0 : t ≠ [])
    (ht : ∀ x ∈ t, isWsC x = false) (hc : isWsC c = true)
    (hf : ∀ x ∈ l, f x ≠ [] ∧ ∀ ch ∈ f x, isWsC ch = false) :
    splitWsAux (t ++ (l.flatMap (fun x => ' ' :: f x) ++ c :: rest)) [] =
      t :: (l.map f ++ splitWsAux rest []) := by
  rw [splitWsAux_chunk t _ [] ht, List.append_nil]
  rw [splitWsAux_flatMap_run f c hc l rest t.reverse hf]
  have hre : (t.reverse.isEmpty) = false := by
    cases ht' : t with
    | nil => exact absurd ht' ht0
    | cons a as => simp [ht']
  rw [hre]
  simp

theorem splitWsAux_acell_values (rest : List Char) :
    splitWsAux (' ' :: '1' :: ' ' :: '1' :: ' ' :: '1' :: '\n' :: rest) [] =
      [['1'], ['1'], ['1']] ++ splitWsAux rest [] := by
  rw [splitWsAux_ws_nil _ _ (by decide)]
  rw [splitWsAux_nonws _ _ _ (by decide)]
  rw [splitWsAux_ws_acc _ _ _ (by decide) (by simp)]
  rw [splitWsAux_nonws _ _ _ (by decide)]
  rw [splitWsAux_ws_acc _ _ _ (by decide) (by simp)]
  rw [splitWsAux_nonws _ _ _ (by decide)]
  rw [splitWsAux_ws_acc _ _ _ (by decide) (by simp)]
  rfl

theorem splitWsAux_rprimRow (a b c : ℚ) (rest : List Char)
    (hb : (fixedContent 16 b).length ≤ 19) (hc : (fixedContent 16 c).length ≤ 19) :
    splitWsAux (rprimRow a b c ++ rest) [] =
      [fixedContent 16 a, fixedContent 16 b, fixedContent 16 c] ++
        splitWsAux rest [] := by
  unfold rprimRow fixedField
  rw [padLeft_cons_of_lt 20 ' ' (fixedContent 16 b) (by omega)]
  rw [padLeft_cons_of_lt 20 ' ' (fixedContent 16 c) (by omega)]
  simp only [List.append_assoc, List.cons_append, List.nil_append,
    List.singleton_append]
  rw [splitWsAux_padded_token 20 _ ' ' _ (fixedContent_ne_nil 16 a)
    (fixedContent_nonws 16 a) (by decide)]
  rw [splitWsAux_padded_token 19 _ ' ' _ (fixedContent_ne_nil 16 b)
    (fixedContent_nonws 16 b) (by decide)]
  rw [splitWsAux_padded_token 19 _ '\n' _ (fixedContent_ne_nil 16 c)
    (fixedContent_nonws 16 c) (by decide)]

theorem splitWsAux_posLines (positions : List Vec3) :
    splitWsAux (scaledPositionsLines positions) [] =
      positions.flatMap (fun v =>
        [fixedContent 16 v.x, fixedContent 16 v.y, fixedContent 16 v.z]) := by
  induction positions with
  | nil => rfl
  | cons v ps ih =>
    unfold scaledPositionsLines
    rw [List.flatMap_cons]
    simp only [List.append_assoc, List.cons_append, List.nil_append,
      List.singleton_append]
    rw [splitWsAux_ws_nil _ _ (by decide)]
    rw [splitWsAux_token _ ' ' _ (fixedContent_ne_nil 16 v.x)
      (fixedContent_nonws 16 v.x) (by decide)]
    rw [splitWsAux_token _ ' ' _ (fixedContent_ne_nil 16 v.y)
      (fixedContent_nonws 16 v.y) (by decide)]
    rw [splitWsAux_token _ '\n' _ (fixedContent_ne_nil 16 v.z)
      (fixedContent_nonws 16 v.z) (by decide)]
    unfold scaledPositionsLines at ih
    simp only [List.append_assoc, List.cons_append, List.nil_append,
      List.singleton_append] at ih
    rw [ih, List.flatMap_cons]
    rfl

theorem splitWsAux_acell_tail (rest : List Char) :
    splitWsAux ('1' :: ' ' :: '1' :: ' ' :: '1' :: '\n' :: rest) [] =
      [['1'], ['1'], ['1']] ++ splitWsAux rest [] := by
  rw [splitWsAux_nonws _ _ _ (by decide)]
  rw [splitWsAux_ws_acc _ _ _ (by decide) (by simp)]
  rw [splitWsAux_nonws _ _ _ (by decide)]
  rw [splitWsAux_ws_acc _ _ _ (by decide) (by simp)]
  rw [splitWsAux_nonws _ _ _ (by decide)]
  rw [splitWsAux_ws_acc _ _ _ (by decide) (by simp)]
  rfl

theorem splitWs_writer (atoms : PyAtoms)
    (hb : ∀ v ∈ [atoms.cell.r1.x, atoms.cell.r2.x, atoms.cell.r1.y,
      atoms.cell.r2.y, atoms.cell.r1.z, atoms.cell.r2.z],
      (fixedContent 16 v).length ≤ 19) :
    splitWs (get_abinit_structure atoms) = writerTokens atoms := by
  unfold splitWs get_abinit_structure writerTokens
  rw [show (" 1 1 1\n").data = [' ', '1', ' ', '1', ' ', '1', '\n'] from rfl]
  simp only [List.append_assoc, List.cons_append, List.nil_append,
    List.singleton_append]
  rw [splitWsAux_token kwNatom ' ' _ (by decide) (by decide) (by decide)]
  rw [splitWsAux_token (natToDigits atoms.numbers.length) '\n' _
    ((natToDigits_spec _).1) (natToDigits_nonws _) (by decide)]
  rw [splitWsAux_token kwTypat '\n' _ (by decide) (by decide) (by decide)]
  rw [splitWsAux_flatMap_run_nil natToDigits '\n' (by decide) _ _
    (fun t _ => ⟨(natToDigits_spec t).1, natToDigits_nonws t⟩)]
  rw [splitWsAux_token kwNtypat ' ' _ (by decide) (by decide) (by decide)]
  rw [splitWsAux_token (natToDigits (mkZnucl atoms.numbers).length) '\n' _
    ((natToDigits_spec _).1) (natToDigits_nonws _) (by decide)]
  rw [splitWsAux_token_flatMap kwZnucl intToDigits '\n' _ _ (by decide)
    (by decide) (by decide)
    (fun z _ => ⟨intToDigits_nonempty z, intToDigits_nonws z⟩)]
  rw [splitWsAux_token kwAcell ' ' _ (by decide) (by decide) (by decide)]
  rw [splitWsAux_acell_tail]
  rw [splitWsAux_token kwRprim '\n' _ (by decide) (by decide) (by decide)]
  rw [splitWsAux_rprimRow _ _ _ _ (hb _ (by simp)) (hb _ (by simp))]
  rw [splitWsAux_rprimRow _ _ _ _ (hb _ (by simp)) (hb _ (by simp))]
  rw [splitWsAux_rprimRow _ _ _ _ (hb _ (by simp)) (hb _ (by simp))]
  rw [splitWsAux_token kwXred '\n' _ (by decide) (by decide) (by decide)]
  rw [splitWsAux_posLines]
  simp

/-! ## Lemmas: collecting the writer's tokens -/

theorem setTag_setTag_same (c : Collected) (t : ATag)
    (v w : List (List Char)) : (c.setTag t v).setTag t w = c.setTag t w := by
  cases t <;> rfl

theorem setTag_eq_of_getTag (c : Collected) (t : ATag) (v : List (List Char))
    (h : c.getTag t = some v) : c.setTag t v = c := by
  cases t <;> (cases c; simp_all [Collected.getTag, Collected.setTag])

theorem collectStep_kw (tag : ATag) (st : Option ATag × Collected) :
    collectStep st tag.kw = (some tag, st.2.setTag tag []) := by
  unfold collectStep
  rw [keywordOf_kw]

theorem collectStep_value (t : ATag) (col : Collected) (cur : List (List Char))
    (tok : List Char) (hcur : col.getTag t = some cur)
    (htok : keywordOf tok = none) :
    collectStep (some t, col) tok = (some t, col.setTag t (cur ++ [tok])) := by
  unfold collectStep
  rw [htok]
  show (some t, col.setTag t ((col.getTag t).getD [] ++ [tok])) = _
  rw [hcur]
  rfl

theorem foldl_collect_run (ts : List (List Char)) (t : ATag) :
    ∀ (col : Collected) (cur : List (List Char)), col.getTag t = some cur →
      (∀ tok ∈ ts, keywordOf tok = none) →
      ts.foldl collectStep (some t, col) = (some t, col.setTag t (cur ++ ts)) := by
  induction ts with
  | nil =>
    intro col cur hcur _
    rw [List.foldl_nil, List.append_nil, setTag_eq_of_getTag col t cur hcur]
  | cons tok ts ih =>
    intro col cur hcur hts
    rw [List.foldl_cons,
      collectStep_value t col cur tok hcur (hts tok (by simp))]
    rw [ih (col.setTag t (cur ++ [tok])) (cur ++ [tok])
      (getTag_setTag_same col t (cur ++ [tok]))
      (fun x hx => hts x (by simp [hx]))]
    rw [setTag_setTag_same, List.append_assoc, List.singleton_append]

theorem keywordOf_writer_value_tokens (atoms : PyAtoms) :
    (∀ tok ∈ (mkTypat (mkZnucl atoms.numbers) atoms.numbers).map natToDigits,
      keywordOf tok = none) ∧
    (∀ tok ∈ (mkZnucl atoms.numbers).map intToDigits, keywordOf tok = none) ∧
    (∀ tok ∈ atoms.scaledPositions.flatMap (fun v =>
      [fixedContent 16 v.x, fixedContent 16 v.y, fixedContent 16 v.z]),
      keywordOf tok = none) := by
  refine ⟨?_, ?_, ?_⟩
  · intro tok htok
    obtain ⟨x, _, rfl⟩ := List.mem_map.mp htok
    exact keywordOf_natToDigits x
  · intro tok htok
    obtain ⟨x, _, rfl⟩ := List.mem_map.mp htok
    exact keywordOf_intToDigits x
  · intro tok htok
    obtain ⟨v, _, hv⟩ := List.mem_flatMap.mp htok
    simp only [List.mem_cons, List.mem_singleton] at hv
    rcases hv with rfl | rfl | rfl | hv
    · exact keywordOf_fixedContent 16 v.x
    · exact keywordOf_fixedContent 16 v.y
    · exact keywordOf_fixedContent 16 v.z
    · exact absurd hv (List.not_mem_nil tok)

theorem collect_writer (atoms : PyAtoms) :
    collectTokens (writerTokens atoms) =
      { acell := some [['1'], ['1'], ['1']],
        natom := some [natToDigits atoms.numbers.length],
        ntypat := some [natToDigits (mkZnucl atoms.numbers).length],
        rprim := some [fixedContent 16 atoms.cell.r0.x,
          fixedContent 16 atoms.cell.r1.x, fixedContent 16 atoms.cell.r2.x,
          fixedContent 16 atoms.cell.r0.y, fixedContent 16 atoms.cell.r1.y,
          fixedContent 16 atoms.cell.r2.y, fixedContent 16 atoms.cell.r0.z,
          fixedContent 16 atoms.cell.r1.z, fixedContent 16 atoms.cell.r2.z],
        typat := some ((mkTypat (mkZnucl atoms.numbers) atoms.numbers).map
          natToDigits),
        xred := some (atoms.scaledPositions.flatMap (fun v =>
          [fixedContent 16 v.x, fixedContent 16 v.y, fixedContent 16 v.z])),
        znucl := some ((mkZnucl atoms.numbers).map intToDigits) } := by
  obtain ⟨hT, hZ, hX⟩ := keywordOf_writer_value_tokens atoms
  unfold collectTokens writerTokens
  rw [List.foldl_append, List.foldl_append, List.foldl_append, List.foldl_append,
    List.foldl_append, List.foldl_append, List.foldl_append]
  have e1 : List.foldl collectStep ((none : Option ATag), ({} : Collected))
      [kwNatom, natToDigits atoms.numbers.length, kwTypat] =
      (some ATag.typat,
        ((({} : Collected).setTag .natom
          [natToDigits atoms.numbers.length]).setTag .typat [])) := by
    rw [List.foldl_cons, show collectStep ((none : Option ATag), ({} : Collected))
      kwNatom = (some ATag.natom, ({} : Collected).setTag .natom []) from
      collectStep_kw ATag.natom _]
    rw [List.foldl_cons, collectStep_value ATag.natom _ []
      (natToDigits atoms.numbers.length)
      (getTag_setTag_same ({} : Collected) ATag.natom [])
      (keywordOf_natToDigits _)]
    rw [setTag_setTag_same, List.nil_append]
    rw [List.foldl_cons, show collectStep (some ATag.natom,
      ({} : Collected).setTag .natom [natToDigits atoms.numbers.length]) kwTypat
      = _ from collectStep_kw ATag.typat _]
    rw [List.foldl_nil]
  rw [e1]
  rw [foldl_collect_run _ ATag.typat _ []
    (getTag_setTag_same _ ATag.typat []) hT]
  rw [setTag_setTag_same, List.nil_append]
  set colA : Collected := (({} : Collected).setTag .natom
    [natToDigits atoms.numbers.length]).setTag .typat
    ((mkTypat (mkZnucl atoms.numbers) atoms.numbers).map natToDigits) with hcolA
  have e2 : List.foldl collectStep (some ATag.typat, colA)
      [kwNtypat, natToDigits (mkZnucl atoms.numbers).length, kwZnucl] =
      (some ATag.znucl,
        ((colA.setTag .ntypat
          [natToDigits (mkZnucl atoms.numbers).length]).setTag .znucl [])) := by
    rw [List.foldl_cons, show collectStep (some ATag.typat, colA) kwNtypat =
      (some ATag.ntypat, colA.setTag .ntypat []) from collectStep_kw ATag.ntypat _]
    rw [List.foldl_cons, collectStep_value ATag.ntypat _ []
      (natToDigits (mkZnucl atoms.numbers).length)
      (getTag_setTag_same colA ATag.ntypat [])
      (keywordOf_natToDigits _)]
    rw [setTag_setTag_same, List.nil_append]
    rw [List.foldl_cons, show collectStep (some ATag.ntypat,
      colA.setTag .ntypat [natToDigits (mkZnucl atoms.numbers).length]) kwZnucl
      = _ from collectStep_kw ATag.znucl _]
    rw [List.foldl_nil]
  rw [e2]
  rw [foldl_collect_run _ ATag.znucl _ []
    (getTag_setTag_same _ ATag.znucl []) hZ]
  rw [setTag_setTag_same, List.nil_append]
  set colB : Collected := ((colA.setTag .ntypat
    [natToDigits (mkZnucl atoms.numbers).length]).setTag .znucl
    ((mkZnucl atoms.numbers).map intToDigits)) with hcolB
  have e3 : List.foldl collectStep (some ATag.znucl, colB)
      [kwAcell, ['1'], ['1'], ['1'], kwRprim] =
      (some ATag.rprim,
        ((colB.setTag .acell [['1'], ['1'], ['1']]).setTag .rprim [])) := by
    rw [List.foldl_cons, show collectStep (some ATag.znucl, colB) kwAcell =
      (some ATag.acell, colB.setTag .acell []) from collectStep_kw ATag.acell _]
    rw [List.foldl_cons, collectStep_value ATag.acell _ [] ['1']
      (getTag_setTag_same colB ATag.acell []) (by decide)]
    rw [setTag_setTag_same, List.nil_append]
    rw [List.foldl_cons, collectStep_value ATag.acell _ [['1']] ['1']
      (getTag_setTag_same colB ATag.acell [['1']]) (by decide)]
    rw [setTag_setTag_same]
    simp only [List.singleton_append]
    rw [List.foldl_cons, collectStep_value ATag.acell _ [['1'], ['1']] ['1']
      (getTag_setTag_same colB ATag.acell [['1'], ['1']]) (by decide)]
    rw [setTag_setTag_same]
    simp only [List.cons_append, List.nil_append]
    rw [List.foldl_cons, show collectStep (some ATag.acell,
      colB.setTag .acell [['1'], ['1'], ['1']]) kwRprim
      = (some ATag.rprim, (colB.setTag .acell [['1'], ['1'], ['1']]).setTag
        .rprim []) from collectStep_kw ATag.rprim _]
    rw [List.foldl_nil]
  rw [e3]
  rw [foldl_collect_run _ ATag.rprim _ []
    (getTag_setTag_same _ ATag.rprim []) (by
      intro tok htok
      simp only [List.mem_cons, List.mem_singleton] at htok
      rcases htok with rfl | rfl | rfl | rfl | rfl | rfl | rfl | rfl | rfl | hf
      · exact keywordOf_fixedContent 16 _
      · exact keywordOf_fixedContent 16 _
      · exact keywordOf_fixedContent 16 _
      · exact keywordOf_fixedContent 16 _
      · exact keywordOf_fixedContent 16 _
      · exact keywordOf_fixedContent 16 _
      · exact keywordOf_fixedContent 16 _
      · exact keywordOf_fixedContent 16 _
      · exact keywordOf_fixedContent 16 _
      · exact absurd hf (List.not_mem_nil tok))]
  rw [setTag_setTag_same, List.nil_append]
  set colC : Collected := ((colB.setTag .acell [['1'], ['1'], ['1']]).setTag
    .rprim [fixedContent 16 atoms.cell.r0.x, fixedContent 16 atoms.cell.r1.x,
      fixedContent 16 atoms.cell.r2.x, fixedContent 16 atoms.cell.r0.y,
      fixedContent 16 atoms.cell.r1.y, fixedContent 16 atoms.cell.r2.y,
      fixedContent 16 atoms.cell.r0.z, fixedContent 16 atoms.cell.r1.z,
      fixedContent 16 atoms.cell.r2.z]) with hcolC
  have e4 : List.foldl collectStep (some ATag.rprim, colC) [kwXred] =
      (some ATag.xred, colC.setTag .xred []) := by
    rw [List.foldl_cons, show collectStep (some ATag.rprim, colC) kwXred =
      (some ATag.xred, colC.setTag .xred []) from collectStep_kw ATag.xred _]
    rw [List.foldl_nil]
  rw [e4]
  rw [foldl_collect_run _ ATag.xred _ []
    (getTag_setTag_same _ ATag.xred []) hX]
  rw [setTag_setTag_same, List.nil_append]
  rw [hcolC, hcolB, hcolA]
  simp only [Collected.setTag]

/-! ## Lemmas: evaluating the setters on the writer's tokens -/

theorem forall2_map_both (f : α → β) (g : α → γ) (R : β → γ → Prop)
    (l : List α) (h : ∀ x ∈ l, R (f x) (g x)) :
    List.Forall₂ R (l.map f) (l.map g) := by
  induction l with
  | nil => exact List.Forall₂.nil
  | cons a l ih =>
    exact List.Forall₂.cons (h a (List.mem_cons_self a l))
      (ih (fun x hx => h x (List.mem_cons_of_mem a hx)))

theorem forall2_map_left (f : α → β) (R : β → α → Prop)
    (l : List α) (h : ∀ x ∈ l, R (f x) x) :
    List.Forall₂ R (l.map f) l := by
  have := forall2_map_both f id R l (by simpa using h)
  simpa using this

theorem accumUntil_exact (parse : List Char → Option (List α))
    (toks : List (List Char)) (vals : List α)
    (hf : List.Forall₂ (fun t v => parse t = some [v]) toks vals) :
    ∀ (acc : List α) (target : ℤ),
    target = ((acc.length + vals.length : ℕ) : ℤ) →
    accumUntil parse toks target acc = some (acc ++ vals) := by
  induction hf with
  | nil =>
    intro acc target ht
    simp [accumUntil]
  | @cons t v ts vs h1 h2 ih =>
    intro acc target ht
    simp only [accumUntil, h1]
    by_cases hvs : vs.length = 0
    · have hvsnil : vs = [] := List.length_eq_zero.mp hvs
      subst hvsnil
      have htsnil : ts = [] := by cases h2; rfl
      subst htsnil
      rw [if_pos (by simp only [List.length_append, List.length_cons,
        List.length_nil] at ht ⊢; omega)]
    · rw [if_neg (by simp only [List.length_append, List.length_cons,
        List.length_nil] at ht ⊢; omega)]
      rw [ih (acc ++ [v]) target (by simp only [List.length_append,
        List.length_cons, List.length_nil] at ht ⊢; omega)]
      simp

theorem pyTake_full (n : ℤ) (l : List α) (h : (l.length : ℤ) = n) :
    pyTake n l = l := by
  rw [pyTake, if_pos (by omega)]
  have h2 : n.toNat = l.length := by omega
  rw [h2, List.take_length]

theorem rows3_flatMap (positions : List Vec3) :
    rows3 (positions.flatMap fun v => [v.x, v.y, v.z]) = some positions := by
  induction positions with
  | nil => rfl
  | cons p ps ih =>
    show (rows3 (ps.flatMap fun v => [v.x, v.y, v.z])).map
      (fun vs => (⟨p.x, p.y, p.z⟩ : Vec3) :: vs) = some (p :: ps)
    rw [ih]
    rfl

theorem flatMap3_length (positions : List Vec3) (f : Vec3 → α × α × α) :
    (positions.flatMap fun v => [(f v).1, (f v).2.1, (f v).2.2]).length =
      3 * positions.length := by
  induction positions with
  | nil => rfl
  | cons p ps ih =>
    simp only [List.flatMap_cons, List.length_append, List.length_cons,
      List.length_nil, ih, List.length_cons]
    ring

theorem set_count_natToDigits (n : ℕ) :
    set_count [natToDigits n] = some (n : ℤ) := by
  simp [set_count, pyIntChars_natToDigits]

theorem mapM_of_forall2 (f : α → Option β) (l : List α) (l' : List β)
    (h : List.Forall₂ (fun x y => f x = some y) l l') :
    l.mapM f = some l' := by
  induction h with
  | nil => rfl
  | @cons x y xs ys h1 h2 ih =>
    rw [List.mapM_cons, h1, ih]
    rfl

theorem colScale_ones (m : Mat3) : m.colScale ⟨1, 1, 1⟩ = m := by
  simp [Mat3.colScale]

theorem transpose_transpose (m : Mat3) : m.transpose.transpose = m := rfl

theorem abinitSetters_all_some
    (aT nT tT rT yT xT zT : List (List Char))
    (natomV ntypatV : ℤ) (acellV : List ℚ) (rprimV : Mat3)
    (typatV : List ℤ) (xredV : List Vec3) (znuclV : List ℤ)
    (hn : set_count nT = some natomV)
    (ht : set_count tT = some ntypatV)
    (ha : set_acell aT = some acellV)
    (hr : set_rprim rT = some rprimV)
    (hy : set_typat yT natomV = some typatV)
    (hx : set_xred xT natomV = some xredV)
    (hz : set_znucl zT ntypatV = some znuclV) :
    abinitSetters
      { acell := some aT, natom := some nT, ntypat := some tT,
        rprim := some rT, typat := some yT, xred := some xT, znucl := some zT }
      nT tT =
      .ok
        { natom := natomV, ntypat := ntypatV, acell := some acellV,
          rprim := some rprimV, typat := some typatV, xred := some xredV,
          znucl := some znuclV } := by
  simp only [abinitSetters, hn, ht, toCrash, runSetter, ha, hr, hy, hx, hz,
    bind, Except.bind, pure, Except.pure]

theorem forall2_xred_tokens (positions : List Vec3)
    (h : ∀ p ∈ positions, (p.x * (10 : ℚ) ^ (16 : ℕ)).den = 1 ∧
      (p.y * (10 : ℚ) ^ (16 : ℕ)).den = 1 ∧
      (p.z * (10 : ℚ) ^ (16 : ℕ)).den = 1) :
    List.Forall₂ (fun t v => get_numerical_values pyFloatChars t = some [v])
      (positions.flatMap fun v =>
        [fixedContent 16 v.x, fixedContent 16 v.y, fixedContent 16 v.z])
      (positions.flatMap fun v => [v.x, v.y, v.z]) := by
  induction positions with
  | nil => exact List.Forall₂.nil
  | cons p ps ih =>
    obtain ⟨h1, h2, h3⟩ := h p (List.mem_cons_self p ps)
    exact List.Forall₂.cons (get_numerical_values_fixedContent _ h1)
      (List.Forall₂.cons (get_numerical_values_fixedContent _ h2)
        (List.Forall₂.cons (get_numerical_values_fixedContent _ h3)
          (ih (fun q hq => h q (List.mem_cons_of_mem p hq)))))

theorem flatMap_coords_length (positions : List Vec3) :
    (positions.flatMap fun v => [v.x, v.y, v.z]).length =
      3 * positions.length := by
  induction positions with
  | nil => rfl
  | cons p ps ih =>
    show ([p.x, p.y, p.z] ++ ps.flatMap fun v => [v.x, v.y, v.z]).length = _
    simp only [List.length_append, List.length_cons, List.length_nil, ih]
    ring

theorem set_acell_ones : set_acell [['1'], ['1'], ['1']] = some [1, 1, 1] := by
  with_unfolding_all decide

/-- C1 (corrected): for every structure whose cell entries lie strictly
between -10 and 100 and whose cell entries and fractional coordinates are
exactly representable with 16 decimals, writing with `get_abinit_structure`
and re-reading with `read_abinit` reproduces the identical atomic numbers,
cell and fractional coordinates.  The range restriction is forced: a cell
entry of 100 or more (or -10 or less) fills its 20-character `%20.16f`
field completely, gluing it to its successor into one unparseable token. -/
theorem C1_write_read_roundtrip (atoms : PyAtoms)
    (hlen : atoms.scaledPositions.length = atoms.numbers.length)
    (hcell : ∀ v ∈ [atoms.cell.r0.x, atoms.cell.r0.y, atoms.cell.r0.z,
      atoms.cell.r1.x, atoms.cell.r1.y, atoms.cell.r1.z,
      atoms.cell.r2.x, atoms.cell.r2.y, atoms.cell.r2.z],
      (v * (10 : ℚ) ^ (16 : ℕ)).den = 1 ∧ -10 < v ∧ v < 100)
    (hpos : ∀ p ∈ atoms.scaledPositions,
      (p.x * (10 : ℚ) ^ (16 : ℕ)).den = 1 ∧
      (p.y * (10 : ℚ) ^ (16 : ℕ)).den = 1 ∧
      (p.z * (10 : ℚ) ^ (16 : ℕ)).den = 1) :
    read_abinit (get_abinit_structure atoms) = .ok atoms := by
  obtain ⟨hd0x, hg0x⟩ := hcell atoms.cell.r0.x (by simp)
  obtain ⟨hd0y, hg0y⟩ := hcell atoms.cell.r0.y (by simp)
  obtain ⟨hd0z, hg0z⟩ := hcell atoms.cell.r0.z (by simp)
  obtain ⟨hd1x, hg1x⟩ := hcell atoms.cell.r1.x (by simp)
  obtain ⟨hd1y, hg1y⟩ := hcell atoms.cell.r1.y (by simp)
  obtain ⟨hd1z, hg1z⟩ := hcell atoms.cell.r1.z (by simp)
  obtain ⟨hd2x, hg2x⟩ := hcell atoms.cell.r2.x (by simp)
  obtain ⟨hd2y, hg2y⟩ := hcell atoms.cell.r2.y (by simp)
  obtain ⟨hd2z, hg2z⟩ := hcell atoms.cell.r2.z (by simp)
  have hb : ∀ v ∈ [atoms.cell.r1.x, atoms.cell.r2.x, atoms.cell.r1.y,
      atoms.cell.r2.y, atoms.cell.r1.z, atoms.cell.r2.z],
      (fixedContent 16 v).length ≤ 19 := by
    intro v hv
    simp only [List.mem_cons, List.not_mem_nil, or_false] at hv
    rcases hv with rfl | rfl | rfl | rfl | rfl | rfl
    · exact fixedContent_length_le_19 _ hd1x hg1x.1 hg1x.2
    · exact fixedContent_length_le_19 _ hd2x hg2x.1 hg2x.2
    · exact fixedContent_length_le_19 _ hd1y hg1y.1 hg1y.2
    · exact fixedContent_length_le_19 _ hd2y hg2y.1 hg2y.2
    · exact fixedContent_length_le_19 _ hd1z hg1z.1 hg1z.2
    · exact fixedContent_length_le_19 _ hd2z hg2z.1 hg2z.2
  have hn : set_count [natToDigits atoms.numbers.length] =
      some (atoms.numbers.length : ℤ) := set_count_natToDigits _
  have ht : set_count [natToDigits (mkZnucl atoms.numbers).length] =
      some ((mkZnucl atoms.numbers).length : ℤ) := set_count_natToDigits _
  have hfr : List.Forall₂
      (fun t v => get_numerical_values pyFloatChars t = some [v])
      [fixedContent 16 atoms.cell.r0.x, fixedContent 16 atoms.cell.r1.x,
       fixedContent 16 atoms.cell.r2.x, fixedContent 16 atoms.cell.r0.y,
       fixedContent 16 atoms.cell.r1.y, fixedContent 16 atoms.cell.r2.y,
       fixedContent 16 atoms.cell.r0.z, fixedContent 16 atoms.cell.r1.z,
       fixedContent 16 atoms.cell.r2.z]
      [atoms.cell.r0.x, atoms.cell.r1.x, atoms.cell.r2.x,
       atoms.cell.r0.y, atoms.cell.r1.y, atoms.cell.r2.y,
       atoms.cell.r0.z, atoms.cell.r1.z, atoms.cell.r2.z] :=
    List.Forall₂.cons (get_numerical_values_fixedContent _ hd0x)
      (List.Forall₂.cons (get_numerical_values_fixedContent _ hd1x)
        (List.Forall₂.cons (get_numerical_values_fixedContent _ hd2x)
          (List.Forall₂.cons (get_numerical_values_fixedContent _ hd0y)
            (List.Forall₂.cons (get_numerical_values_fixedContent _ hd1y)
              (List.Forall₂.cons (get_numerical_values_fixedContent _ hd2y)
                (List.Forall₂.cons (get_numerical_values_fixedContent _ hd0z)
                  (List.Forall₂.cons (get_numerical_values_fixedContent _ hd1z)
                    (List.Forall₂.cons
                      (get_numerical_values_fixedContent _ hd2z)
                      List.Forall₂.nil))))))))
  have hr : set_rprim [fixedContent 16 atoms.cell.r0.x,
      fixedContent 16 atoms.cell.r1.x, fixedContent 16 atoms.cell.r2.x,
      fixedContent 16 atoms.cell.r0.y, fixedContent 16 atoms.cell.r1.y,
      fixedContent 16 atoms.cell.r2.y, fixedContent 16 atoms.cell.r0.z,
      fixedContent 16 atoms.cell.r1.z, fixedContent 16 atoms.cell.r2.z] =
      some atoms.cell.transpose := by
    rw [set_rprim, accumUntil_exact _ _ _ hfr [] 9 (by norm_num)]
    rfl
  have hy : set_typat
      ((mkTypat (mkZnucl atoms.numbers) atoms.numbers).map natToDigits)
      (atoms.numbers.length : ℤ) =
      some ((mkTypat (mkZnucl atoms.numbers) atoms.numbers).map
        (fun t : ℕ => (t : ℤ))) := by
    rw [set_typat, accumUntil_exact _ _ _
      (forall2_map_both natToDigits (fun t : ℕ => (t : ℤ)) _ _
        (fun x _ => get_numerical_values_natToDigits_int x)) []
      (atoms.numbers.length : ℤ) (by simp [mkTypat])]
    show some (pyTake (atoms.numbers.length : ℤ)
      ((mkTypat (mkZnucl atoms.numbers) atoms.numbers).map
        (fun t : ℕ => (t : ℤ)))) = _
    rw [pyTake_full _ _ (by simp [mkTypat])]
  have hx : set_xred
      (atoms.scaledPositions.flatMap fun v =>
        [fixedContent 16 v.x, fixedContent 16 v.y, fixedContent 16 v.z])
      (atoms.numbers.length : ℤ) = some atoms.scaledPositions := by
    rw [set_xred, accumUntil_exact _ _ _ (forall2_xred_tokens _ hpos) []
      ((atoms.numbers.length : ℤ) * 3) (by
        rw [List.length_nil, Nat.zero_add, flatMap_coords_length, hlen]
        push_cast
        ring)]
    show rows3 (pyTake ((atoms.numbers.length : ℤ) * 3)
      ([] ++ atoms.scaledPositions.flatMap fun v => [v.x, v.y, v.z])) = _
    rw [List.nil_append, pyTake_full _ _ (by
      rw [flatMap_coords_length, hlen]; push_cast; ring)]
    rw [rows3_flatMap]
  have hz : set_znucl ((mkZnucl atoms.numbers).map intToDigits)
      ((mkZnucl atoms.numbers).length : ℤ) = some (mkZnucl atoms.numbers) := by
    rw [set_znucl, accumUntil_exact _ _ _
      (forall2_map_left intToDigits _ _
        (fun z _ => get_numerical_values_intToDigits z)) []
      ((mkZnucl atoms.numbers).length : ℤ) (by simp)]
    show some (pyTake ((mkZnucl atoms.numbers).length : ℤ)
      (mkZnucl atoms.numbers)) = _
    rw [pyTake_full _ _ rfl]
  have ha : set_acell [['1'], ['1'], ['1']] = some [1, 1, 1] := set_acell_ones
  have hvars : abinitVariables (get_abinit_structure atoms) =
      .ok { natom := (atoms.numbers.length : ℤ),
            ntypat := ((mkZnucl atoms.numbers).length : ℤ),
            acell := some [1, 1, 1],
            rprim := some atoms.cell.transpose,
            typat := some ((mkTypat (mkZnucl atoms.numbers)
              atoms.numbers).map (fun t : ℕ => (t : ℤ))),
            xred := some atoms.scaledPositions,
            znucl := some (mkZnucl atoms.numbers) } := by
    rw [abinitVariables, splitWs_writer atoms hb, abinitCollect,
      collect_writer]
    exact abinitSetters_all_some _ _ _ _ _ _ _ _ _ _ _ _ _ _
      hn ht ha hr hy hx hz
  have hmapM : ((mkTypat (mkZnucl atoms.numbers) atoms.numbers).map
      (fun t : ℕ => (t : ℤ))).mapM
      (fun x => pyIndex (mkZnucl atoms.numbers) (x - 1)) =
      some atoms.numbers := by
    apply mapM_of_forall2
    rw [mkTypat, List.map_map]
    apply forall2_map_left
    intro n hn'
    have hmem : n ∈ mkZnucl atoms.numbers := (mkZnucl_mem atoms.numbers n).mpr hn'
    have hi : ((((mkZnucl atoms.numbers).indexOf n + 1 : ℕ) : ℤ)) - 1 =
        (((mkZnucl atoms.numbers).indexOf n : ℕ) : ℤ) := by push_cast; ring
    show pyIndex (mkZnucl atoms.numbers)
      ((((mkZnucl atoms.numbers).indexOf n + 1 : ℕ) : ℤ) - 1) = some n
    rw [hi, pyIndex, if_pos (Int.natCast_nonneg _), Int.toNat_natCast,
      List.get?_eq_getElem?]
    exact List.getElem?_indexOf hmem
  simp only [read_abinit, hvars, bind, Except.bind, requireTag,
    rprimTimesAcell, colScale_ones, hmapM, pure, Except.pure,
    transpose_transpose]

theorem C1_write_read_roundtrip_witness :
    read_abinit (get_abinit_structure
      ⟨[6, 8, 6], ⟨⟨5/2, 0, 0⟩, ⟨0, 3, 0⟩, ⟨0, 0, 7/2⟩⟩,
        [⟨0, 0, 0⟩, ⟨1/4, 1/4, 1/2⟩, ⟨1/2, 3/4, 1/4⟩]⟩) =
      .ok ⟨[6, 8, 6], ⟨⟨5/2, 0, 0⟩, ⟨0, 3, 0⟩, ⟨0, 0, 7/2⟩⟩,
        [⟨0, 0, 0⟩, ⟨1/4, 1/4, 1/2⟩, ⟨1/2, 3/4, 1/4⟩]⟩ :=
  C1_write_read_roundtrip _ (by with_unfolding_all decide)
    (by with_unfolding_all decide) (by with_unfolding_all decide)

/-- A cell entry of 100 fills its `%20.16f` field, gluing two fields
into one unparseable token: the written file crashes the reader instead
of round-tripping. -/
theorem C1_write_read_roundtrip_counterexample :
    read_abinit (get_abinit_structure
      ⟨[1], ⟨⟨1, 0, 0⟩, ⟨100, 1, 0⟩, ⟨0, 0, 1⟩⟩, [⟨0, 0, 0⟩]⟩) =
      .error .crash := by
  with_unfolding_all rfl

theorem splitWs_writer_front (atoms : PyAtoms) :
    ∃ rest : List (List Char),
      splitWs (get_abinit_structure atoms) =
        [kwNatom, natToDigits atoms.numbers.length, kwTypat] ++
        ((mkTypat (mkZnucl atoms.numbers) atoms.numbers).map natToDigits ++
        ([kwNtypat, natToDigits (mkZnucl atoms.numbers).length, kwZnucl] ++
        ((mkZnucl atoms.numbers).map intToDigits ++
        ([kwAcell, ['1'], ['1'], ['1'], kwRprim] ++ rest)))) :=
  ⟨_, by
  unfold splitWs get_abinit_structure
  rw [show (" 1 1 1\n").data = [' ', '1', ' ', '1', ' ', '1', '\n'] from rfl]
  simp only [List.append_assoc, List.cons_append, List.nil_append,
    List.singleton_append]
  rw [splitWsAux_token kwNatom ' ' _ (by decide) (by decide) (by decide)]
  rw [splitWsAux_token (natToDigits atoms.numbers.length) '\n' _
    ((natToDigits_spec _).1) (natToDigits_nonws _) (by decide)]
  rw [splitWsAux_token kwTypat '\n' _ (by decide) (by decide) (by decide)]
  rw [splitWsAux_flatMap_run_nil natToDigits '\n' (by decide) _ _
    (fun t _ => ⟨(natToDigits_spec t).1, natToDigits_nonws t⟩)]
  rw [splitWsAux_token kwNtypat ' ' _ (by decide) (by decide) (by decide)]
  rw [splitWsAux_token (natToDigits (mkZnucl atoms.numbers).length) '\n' _
    ((natToDigits_spec _).1) (natToDigits_nonws _) (by decide)]
  rw [splitWsAux_token_flatMap kwZnucl intToDigits '\n' _ _ (by decide)
    (by decide) (by decide)
    (fun z _ => ⟨intToDigits_nonempty z, intToDigits_nonws z⟩)]
  rw [splitWsAux_token kwAcell ' ' _ (by decide) (by decide) (by decide)]
  rw [splitWsAux_acell_tail]
  rw [splitWsAux_token kwRprim '\n' _ (by decide) (by decide) (by decide)]
  simp only [List.append_assoc, List.cons_append, List.nil_append,
    List.singleton_append]
  rfl⟩

/-- C9: `get_abinit_structure` emits `znucl` as exactly the distinct atomic
numbers in first-occurrence order and `ntypat` as their count, and every
emitted `typat` entry `t` satisfies `1 <= t <= len(znucl)` (the emitted
token stream begins with precisely these rendered lists); consequently the
lookup `znucl[typat_entry - 1]` performed by `read_abinit` is always in
bounds and recovers each original atomic number. -/
theorem C9_znucl_typat_safety (atoms : PyAtoms) :
    (∃ rest : List (List Char),
      splitWs (get_abinit_structure atoms) =
        [kwNatom, natToDigits atoms.numbers.length, kwTypat] ++
        ((mkTypat (mkZnucl atoms.numbers) atoms.numbers).map natToDigits ++
        ([kwNtypat, natToDigits (mkZnucl atoms.numbers).length, kwZnucl] ++
        ((mkZnucl atoms.numbers).map intToDigits ++
        ([kwAcell, ['1'], ['1'], ['1'], kwRprim] ++ rest))))) ∧
    mkZnucl atoms.numbers = firstOcc [] atoms.numbers ∧
    (mkZnucl atoms.numbers).Nodup ∧
    (∀ n, n ∈ mkZnucl atoms.numbers ↔ n ∈ atoms.numbers) ∧
    (∀ t ∈ mkTypat (mkZnucl atoms.numbers) atoms.numbers,
      1 ≤ t ∧ t ≤ (mkZnucl atoms.numbers).length) ∧
    (∀ i, i < atoms.numbers.length →
      pyIndex (mkZnucl atoms.numbers)
        (((mkTypat (mkZnucl atoms.numbers) atoms.numbers).getD i 0 : ℤ) - 1) =
        some (atoms.numbers.getD i 0)) :=
  ⟨splitWs_writer_front atoms, mkZnucl_eq_firstOcc _, mkZnucl_nodup _,
    mkZnucl_mem _,
    mkTypat_bounds _ _ (fun n hn => (mkZnucl_mem atoms.numbers n).mpr hn),
    fun i hi => mkTypat_lookup atoms.numbers i hi⟩

/-! ## Lemmas: console summary of `get_thermal_conductivity` -/

theorem zip_map_eq_range_map (l1 : List α) (l2 : List β) (d1 : α) (d2 : β)
    (f : α × β → γ) (h : l2.length = l1.length) :
    (l1.zip l2).map f =
      (List.range l1.length).map (fun i => f (l1.getD i d1, l2.getD i d2)) := by
  apply List.ext_getElem
  · simp [List.length_zip, h]
  · intro i h1 h2
    simp only [List.length_map, List.length_zip, h, min_self] at h1
    rw [List.getElem_map, List.getElem_map, List.getElem_zip,
      List.getElem_range]
    rw [List.getD_eq_getElem l1 d1 (by omega), List.getD_eq_getElem l2 d2 (by omega)]

theorem addVec6Rows_length (a b : List Vec6) :
    (addVec6Rows a b).length = min a.length b.length := by
  simp [addVec6Rows]

theorem npSumRows_length (nT : ℕ) (rows : List (List Vec6))
    (h : ∀ r ∈ rows, r.length = nT) : (npSumRows nT rows).length = nT := by
  have key : ∀ (rs : List (List Vec6)) (init : List Vec6),
      (∀ r ∈ rs, r.length = nT) → init.length = nT →
      (rs.foldl addVec6Rows init).length = nT := by
    intro rs
    induction rs with
    | nil => intro init _ hinit; exact hinit
    | cons r rs ih =>
      intro init hrs hinit
      rw [List.foldl_cons]
      exact ih _ (fun x hx => hrs x (List.mem_cons_of_mem r hx))
        (by rw [addVec6Rows_length, hinit,
          hrs r (List.mem_cons_self r rs), min_self])
  exact key rows _ h (List.length_replicate nT Vec6.zero)

theorem kappaOfModeKappa_length (nT : ℕ) (mks : List (List (List Vec6)))
    (h : ∀ gpRows ∈ mks, gpRows.length = nT) :
    (kappaOfModeKappa nT mks).length = nT := by
  apply npSumRows_length
  intro r hr
  obtain ⟨gp, hgp, rfl⟩ := List.mem_map.mp hr
  rw [List.length_map]
  exact h gp hgp

theorem sigmaBlock_rows (s : ℚ) (temps : List ℚ) (kappa : List Vec6)
    (hk : kappa.length = temps.length) :
    sigmaBlock s temps kappa =
      sigmaHeaderLine s :: columnHeaderLine ::
        ((List.range temps.length).map (fun j =>
          kappaRowLine (temps.getD j 0) (kappa.getD j Vec6.zero)) ++ [[]]) := by
  rw [sigmaBlock, zip_map_eq_range_map temps kappa 0 Vec6.zero _ hk]
  rfl

theorem zip_flatMap_eq_range_flatMap (l1 : List α) (l2 : List β) (d1 : α)
    (d2 : β) (f : α × β → List γ) (h : l2.length = l1.length) :
    (l1.zip l2).flatMap f =
      (List.range l1.length).flatMap
        (fun i => f (l1.getD i d1, l2.getD i d2)) := by
  rw [List.flatMap_def, List.flatMap_def,
    zip_map_eq_range_map l1 l2 d1 d2 f h]

/-- C5: with `grid_points` equal to `None`, the console summary is, for
each sigma in the supplied order, one block; each block is the sigma
header line, the column header line, one data row per temperature (the
row `j` showing temperature `j` next to its six tensor components), and
a blank line; each data row renders the temperature then the components
in the order xx, yy, zz, yz, xz, xy; and the temperatures are strictly
ascending. -/
theorem C5_console_summary (sigmas : List ℚ) (t_min t_max t_step : ℚ)
    (modeKappa : List (List (List (List Vec6))))
    (hlen : modeKappa.length = sigmas.length)
    (hstep : 0 < t_step)
    (huni : ∀ mks ∈ modeKappa, ∀ gpRows ∈ mks,
      gpRows.length = (brTemperatures t_min t_max t_step).length) :
    thermalConductivitySummary sigmas t_min t_max t_step modeKappa none =
      some ((List.range sigmas.length).flatMap (fun i =>
        sigmaBlock (sigmas.getD i 0) (brTemperatures t_min t_max t_step)
          (kappaOfModeKappa (brTemperatures t_min t_max t_step).length
            (modeKappa.getD i [])))) ∧
    (∀ i, i < sigmas.length →
      sigmaBlock (sigmas.getD i 0) (brTemperatures t_min t_max t_step)
        (kappaOfModeKappa (brTemperatures t_min t_max t_step).length
          (modeKappa.getD i [])) =
      sigmaHeaderLine (sigmas.getD i 0) :: columnHeaderLine ::
        ((List.range (brTemperatures t_min t_max t_step).length).map (fun j =>
          kappaRowLine ((brTemperatures t_min t_max t_step).getD j 0)
            ((kappaOfModeKappa (brTemperatures t_min t_max t_step).length
              (modeKappa.getD i [])).getD j Vec6.zero)) ++ [[]])) ∧
    (∀ t k, kappaRowLine t k =
      fixedField 7 1 t ++
      ' ' :: fixedField 9 3 k.xx ++ ' ' :: fixedField 9 3 k.yy ++
      ' ' :: fixedField 9 3 k.zz ++ ' ' :: fixedField 9 3 k.yz ++
      ' ' :: fixedField 9 3 k.xz ++ ' ' :: fixedField 9 3 k.xy) ∧
    (∀ j, j + 1 < (brTemperatures t_min t_max t_step).length →
      (brTemperatures t_min t_max t_step).getD j 0 <
        (brTemperatures t_min t_max t_step).getD (j + 1) 0) := by
  refine ⟨?_, ?_, ?_, ?_⟩
  · simp only [thermalConductivitySummary]
    rw [zip_flatMap_eq_range_flatMap sigmas modeKappa 0 [] _ hlen]
  · intro i hi
    apply sigmaBlock_rows
    apply kappaOfModeKappa_length
    intro gpRows hgp
    have hmem : modeKappa.getD i [] ∈ modeKappa := by
      rw [List.getD_eq_getElem _ _ (by omega)]
      exact List.getElem_mem _
    exact huni _ hmem gpRows hgp
  · intro t k
    simp [kappaRowLine, Vec6.toList]
  · intro j hj
    rw [brTemperatures] at hj ⊢
    rw [npArange_getD _ _ _ j (by omega), npArange_getD _ _ _ (j + 1) hj]
    have e : t_min + ((j : ℚ) + 1) * t_step =
        (t_min + (j : ℚ) * t_step) + t_step := by ring
    push_cast
    rw [e]
    linarith

theorem C5_console_summary_witness :
    thermalConductivitySummary [1/10] 0 20 10
      [[[[(⟨1, 2, 3, 4, 5, 6⟩ : Vec6)], [⟨1, 2, 3, 4, 5, 6⟩],
        [⟨1, 2, 3, 4, 5, 6⟩]]]] none =
      some ((List.range ([(1 : ℚ)/10]).length).flatMap (fun i =>
        sigmaBlock (([(1 : ℚ)/10]).getD i 0) (brTemperatures 0 20 10)
          (kappaOfModeKappa (brTemperatures 0 20 10).length
            (([[[[(⟨1, 2, 3, 4, 5, 6⟩ : Vec6)], [⟨1, 2, 3, 4, 5, 6⟩],
              [⟨1, 2, 3, 4, 5, 6⟩]]]]).getD i [])))) ∧
    (∀ i, i < ([(1 : ℚ)/10]).length →
      sigmaBlock (([(1 : ℚ)/10]).getD i 0) (brTemperatures 0 20 10)
        (kappaOfModeKappa (brTemperatures 0 20 10).length
          (([[[[(⟨1, 2, 3, 4, 5, 6⟩ : Vec6)], [⟨1, 2, 3, 4, 5, 6⟩],
            [⟨1, 2, 3, 4, 5, 6⟩]]]]).getD i [])) =
      sigmaHeaderLine (([(1 : ℚ)/10]).getD i 0) :: columnHeaderLine ::
        ((List.range (brTemperatures 0 20 10).length).map (fun j =>
          kappaRowLine ((brTemperatures 0 20 10).getD j 0)
            ((kappaOfModeKappa (brTemperatures 0 20 10).length
              (([[[[(⟨1, 2, 3, 4, 5, 6⟩ : Vec6)], [⟨1, 2, 3, 4, 5, 6⟩],
                [⟨1, 2, 3, 4, 5, 6⟩]]]]).getD i [])).getD j Vec6.zero)) ++
          [[]])) ∧
    (∀ t k, kappaRowLine t k =
      fixedField 7 1 t ++
      ' ' :: fixedField 9 3 k.xx ++ ' ' :: fixedField 9 3 k.yy ++
      ' ' :: fixedField 9 3 k.zz ++ ' ' :: fixedField 9 3 k.yz ++
      ' ' :: fixedField 9 3 k.xz ++ ' ' :: fixedField 9 3 k.xy) ∧
    (∀ j, j + 1 < (brTemperatures 0 20 10).length →
      (brTemperatures 0 20 10).getD j 0 <
        (brTemperatures 0 20 10).getD (j + 1) 0) :=
  C5_console_summary [1/10] 0 20 10
    [[[[(⟨1, 2, 3, 4, 5, 6⟩ : Vec6)], [⟨1, 2, 3, 4, 5, 6⟩],
      [⟨1, 2, 3, 4, 5, 6⟩]]]]
    (by with_unfolding_all decide) (by with_unfolding_all decide)
    (by with_unfolding_all decide)
